import Mathlib

/-!
# Verification of the rusterio geometry / resampling pipeline

Shallow embedding of the rusterio raster library core:

* `src/intersection.rs` — rectangle intersection (`Rect::intersection`);
* `src/components/bounds.rs` — `GeoBounds`, `ViewBounds`, `ReadBounds`,
  `GeoBounds::build_raster_view_bounds`, `as_read_bounds`;
* `src/components/transforms.rs` — affine transforms;
* `src/components/view/mod.rs` — `View::clip`, `ReadView::read`;
* `src/components/view/chunking.rs` — `ResolutionChunker`;
* `src/components/raster/mod.rs` — `Raster::stack`.

Modelling conventions:

* `f64` coordinates are modelled as `ℚ` (the algorithms use only ring
  operations, comparisons and floor/ceil, all exact on the inputs at stake);
* `usize` is modelled as `ℕ`;
* Rust panics (out-of-bounds slice writes, `unwrap` of a failed numeric
  cast, `pop`/`next` of an empty collection) are modelled by `Option.none`;
* mutable flat buffers (`&mut [T]`) are modelled as total functions
  `ℕ → T` together with an explicit length against which every slice
  access is range-checked, mirroring the panicking behaviour of slice
  indexing.
-/

/-- `geo::Coord`: a pair of coordinates. -/
structure Coord (α : Type) where
  x : α
  y : α
deriving Repr, DecidableEq

/-- `geo::Rect`: an axis-aligned rectangle stored as `min`/`max` corners.
The `Rect::new` smart constructor (below) normalises the corners; a raw
`Rect` value, like in the `geo` crate, is only well-formed when
`min ≤ max` componentwise (`Rect.wf`). -/
structure Rect (α : Type) where
  min : Coord α
  max : Coord α
deriving Repr, DecidableEq

namespace Rect

variable {α : Type} [LinearOrder α]

/-- `geo::Rect::new`: swaps coordinates as needed so that `min ≤ max`
componentwise. -/
def new (c1 c2 : Coord α) : Rect α :=
  { min := ⟨Min.min c1.x c2.x, Min.min c1.y c2.y⟩
    max := ⟨Max.max c1.x c2.x, Max.max c1.y c2.y⟩ }

/-- The well-formedness invariant of a `geo::Rect`. -/
def wf (r : Rect α) : Prop :=
  r.min.x ≤ r.max.x ∧ r.min.y ≤ r.max.y

instance (r : Rect α) : Decidable r.wf := by
  unfold wf; infer_instance


end Rect

/-- `Bounds::shape` for integer pixel bounds: `max - min` componentwise
(width, height). -/
def Rect.shape (r : Rect ℕ) : Coord ℕ :=
  ⟨r.max.x - r.min.x, r.max.y - r.min.y⟩

/-- `PixelBounds::size`: number of pixels, `width * height`
(`unsigned_area`). -/
def Rect.size (r : Rect ℕ) : ℕ :=
  r.shape.x * r.shape.y

/-- The error type of the library (`errors.rs` / `intersection.rs`);
only the variant exercised by the verified code paths is modelled.
`RusterioError::NoIntersection(IntersectionError::NoIntersection)`. -/
inductive RusterioError where
  | noIntersection
deriving Repr, DecidableEq

namespace Rect

variable {α : Type} [LinearOrder α]

/-- `<Rect<T> as Intersection>::intersection` (src/intersection.rs:20-40):
two strict-separation checks, then `Rect::new` of the componentwise
max-of-mins and min-of-maxes. -/
def intersection (lhs rhs : Rect α) : Except RusterioError (Rect α) :=
  if lhs.max.x < rhs.min.x ∨ lhs.max.y < rhs.min.y then
    .error .noIntersection
  else if rhs.max.x < lhs.min.x ∨ rhs.max.y < lhs.min.y then
    .error .noIntersection
  else
    .ok (Rect.new
      ⟨Max.max lhs.min.x rhs.min.x, Max.max lhs.min.y rhs.min.y⟩
      ⟨Min.min lhs.max.x rhs.max.x, Min.min lhs.max.y rhs.max.y⟩)

/-- Closed-interval overlap of two rectangles: on each axis neither is
strictly beyond the other. -/
def overlap (lhs rhs : Rect α) : Prop :=
  rhs.min.x ≤ lhs.max.x ∧ lhs.min.x ≤ rhs.max.x ∧
  rhs.min.y ≤ lhs.max.y ∧ lhs.min.y ≤ rhs.max.y

instance (lhs rhs : Rect α) : Decidable (lhs.overlap rhs) := by
  unfold overlap; infer_instance

end Rect

instance {ε α : Type} [DecidableEq ε] [DecidableEq α] :
    DecidableEq (Except ε α) := fun x y =>
  match x, y with
  | .ok a, .ok b =>
    match decEq a b with
    | isTrue h => isTrue (h ▸ rfl)
    | isFalse h => isFalse (fun hh => h (Except.ok.inj hh))
  | .error a, .error b =>
    match decEq a b with
    | isTrue h => isTrue (h ▸ rfl)
    | isFalse h => isFalse (fun hh => h (Except.error.inj hh))
  | .ok _, .error _ => isFalse (fun hh => Except.noConfusion hh)
  | .error _, .ok _ => isFalse (fun hh => Except.noConfusion hh)

/-- `usize::div_ceil` (used in `ResolutionChunker::new`):
`a / b` rounded up.  (The source panics on `b = 0`; that case is never
reached by the verified paths.) -/
def divCeil (a b : ℕ) : ℕ :=
  a / b + if a % b = 0 then 0 else 1

/-- `geo::AffineTransform`: the six coefficients
`(a, b, xoff, d, e, yoff)` of a 2-D affine map.  `f64` is modelled as
`ℚ`.  The `ReadGeoTransform` / `GeoReadTransform` wrappers of
`transforms.rs` add only a CRS tag, which none of the verified
operations consult, so a bare transform stands for them here. -/
structure AffineTransform where
  a : ℚ
  b : ℚ
  xoff : ℚ
  d : ℚ
  e : ℚ
  yoff : ℚ
deriving Repr, DecidableEq

/-- Application of an affine transform to a coordinate:
`x' = a·x + b·y + xoff`, `y' = d·x + e·y + yoff`. -/
def AffineTransform.apply (t : AffineTransform) (c : Coord ℚ) : Coord ℚ :=
  ⟨t.a * c.x + t.b * c.y + t.xoff, t.d * c.x + t.e * c.y + t.yoff⟩

/-- `ViewBounds` (bounds.rs): an integer rectangle in the unified view
pixel grid (`Rect<usize>`). -/
abbrev ViewBounds := Rect ℕ

/-- `ReadBounds` (bounds.rs): an integer rectangle in a band's native
pixel grid (`Rect<usize>`). -/
abbrev ReadBounds := Rect ℕ

/-- `ViewBounds::new(offset, shape)`: rectangle from top-left offset and
shape. -/
def ViewBounds.new (offset shape : ℕ × ℕ) : ViewBounds :=
  Rect.new ⟨offset.1, offset.2⟩ ⟨offset.1 + shape.1, offset.2 + shape.2⟩

/-- `GeoBounds` (bounds.rs): a CRS-tagged rectangle in geographic
coordinates (`CrsGeometry<Rect<f64>>`). -/
structure GeoBounds where
  crs : String
  rect : Rect ℚ
deriving DecidableEq

/-- `<GeoBounds as Intersection>::intersection` (bounds.rs:64-69), which
delegates through `CrsGeometry` (crs_geo.rs:87-96) to the rectangle
intersection, keeping the left operand's CRS (no reprojection happens on
this path). -/
def GeoBounds.intersection (lhs rhs : GeoBounds) :
    Except RusterioError GeoBounds :=
  (lhs.rect.intersection rhs.rect).map (fun r => ⟨lhs.crs, r⟩)

/-- `GeoBounds::as_read_bounds` (bounds.rs:112-118): transform both
corners of the geographic rectangle by the group's geo→read transform,
cast the resulting `f64` coordinates to `usize` (`try_cast().unwrap()`,
which truncates toward zero and panics — modelled as `none` — when a
coordinate is negative), and take the bounding rectangle. -/
def GeoBounds.as_read_bounds (g : GeoBounds) (t : AffineTransform) :
    Option ReadBounds :=
  if 0 ≤ (t.apply g.rect.min).x ∧ 0 ≤ (t.apply g.rect.min).y ∧
      0 ≤ (t.apply g.rect.max).x ∧ 0 ≤ (t.apply g.rect.max).y then
    some (Rect.new
      ⟨⌊(t.apply g.rect.min).x⌋.toNat, ⌊(t.apply g.rect.min).y⌋.toNat⟩
      ⟨⌊(t.apply g.rect.max).x⌋.toNat, ⌊(t.apply g.rect.max).y⌋.toNat⟩)
  else
    none

/-- `ViewBounds::as_read_bounds` (bounds.rs:160-169): cast both corners
to `f64`, transform by the band's view→read transform, apply `f64::ceil`
to every coordinate (`map_each(f64::ceil)`), cast back to `usize`
(panics — modelled as `none` — when a ceiled coordinate is negative),
and take the bounding rectangle. -/
def ViewBounds.as_read_bounds (v : ViewBounds) (t : AffineTransform) :
    Option ReadBounds :=
  if 0 ≤ ⌈(t.apply ⟨(v.min.x : ℚ), (v.min.y : ℚ)⟩).x⌉ ∧
      0 ≤ ⌈(t.apply ⟨(v.min.x : ℚ), (v.min.y : ℚ)⟩).y⌉ ∧
      0 ≤ ⌈(t.apply ⟨(v.max.x : ℚ), (v.max.y : ℚ)⟩).x⌉ ∧
      0 ≤ ⌈(t.apply ⟨(v.max.x : ℚ), (v.max.y : ℚ)⟩).y⌉ then
    some (Rect.new
      ⟨⌈(t.apply ⟨(v.min.x : ℚ), (v.min.y : ℚ)⟩).x⌉.toNat,
       ⌈(t.apply ⟨(v.min.x : ℚ), (v.min.y : ℚ)⟩).y⌉.toNat⟩
      ⟨⌈(t.apply ⟨(v.max.x : ℚ), (v.max.y : ℚ)⟩).x⌉.toNat,
       ⌈(t.apply ⟨(v.max.x : ℚ), (v.max.y : ℚ)⟩).y⌉.toNat⟩)
  else
    none

/-- The `transforms.map(|t| self.as_read_bounds(t)).collect()` step of
`build_raster_view_bounds`: collects the read bounds of every transform,
propagating the panic (`none`) of a failed cast inside
`as_read_bounds`. -/
def GeoBounds.readBoundsList (g : GeoBounds) :
    List AffineTransform → Option (List ReadBounds)
  | [] => some []
  | t :: ts =>
    match g.as_read_bounds t, g.readBoundsList ts with
    | some rb, some rbs => some (rb :: rbs)
    | _, _ => none

/-- `GeoBounds::build_raster_view_bounds` (bounds.rs:97-110): map every
group transform to its read bounds, pop the last one (`unwrap` panics —
`none` — on an empty list), and fold the least common multiple of the
shapes over the remaining ones; the view bounds are the rectangle from
the origin to the folded shape. -/
def GeoBounds.build_raster_view_bounds (g : GeoBounds)
    (transforms : List AffineTransform) : Option ViewBounds :=
  match g.readBoundsList transforms with
  | none => none
  | some read_bounds =>
    match read_bounds.getLast? with
    | none => none
    | some last =>
      some (Rect.new ⟨0, 0⟩
        (read_bounds.dropLast.foldl
          (fun acc rb => ⟨Nat.lcm acc.x rb.shape.x, Nat.lcm acc.y rb.shape.y⟩)
          last.shape))

/-- `ResolutionChunker` (chunking.rs:10-16).  The source field `ratio`
is named `ratio_xy` here. -/
structure ResolutionChunker where
  ratio_xy : Coord ℕ
  left_block_width : ℕ
  top_block_height : ℕ
  view_width : ℕ
  read_shape : Coord ℕ

/-- `ResolutionChunker::new` (chunking.rs:19-42): the ratio is the
componentwise ceiling division of the view shape by the read shape; the
relative bounds map both corners of the view bounds modulo the ratio
(`Rect::new` re-normalises the mapped corners, exactly as
`geo::Rect::map_coords` does). -/
def ResolutionChunker.new (view_bounds read_bounds : Rect ℕ) :
    ResolutionChunker :=
  let ratio_xy : Coord ℕ :=
    ⟨divCeil view_bounds.shape.x read_bounds.shape.x,
     divCeil view_bounds.shape.y read_bounds.shape.y⟩
  let relative_bounds := Rect.new
    ⟨view_bounds.min.x % ratio_xy.x, view_bounds.min.y % ratio_xy.y⟩
    ⟨view_bounds.max.x % ratio_xy.x, view_bounds.max.y % ratio_xy.y⟩
  let relative_top_height := relative_bounds.max.y
  { ratio_xy := ratio_xy
    left_block_width := ratio_xy.x - relative_bounds.min.x
    top_block_height :=
      if relative_top_height = 0 then ratio_xy.y else relative_top_height
    view_width := view_bounds.shape.x
    read_shape := read_bounds.shape }

/-- `slice[start..start+width].fill(val)` on a flat buffer of length
`len`: `none` models the panic of an out-of-range slice index. -/
def fillRange {T : Type} (len start width : ℕ) (val : T) (buf : ℕ → T) :
    Option (ℕ → T) :=
  if start + width ≤ len then
    some (fun p => if start ≤ p ∧ p < start + width then val else buf p)
  else
    none

/-- The propagation step of chunking.rs:61-68:
`band_buff[start..start+vw*height].chunks_exact_mut(vw)` followed by the
`reduce` that copies each chunk onto the next, which leaves every chunk
equal to the first one.  `none` models the panics (out-of-range slice,
`chunks_exact_mut(0)`). -/
def rowCopy {T : Type} (len start vw height : ℕ) (buf : ℕ → T) :
    Option (ℕ → T) :=
  if vw ≠ 0 ∧ start + vw * height ≤ len then
    some (fun p =>
      if start ≤ p ∧ p < start + vw * height then buf (start + (p - start) % vw)
      else buf p)
  else
    none

namespace ResolutionChunker

/-- chunking.rs:73-79. -/
def read_row_idx_to_block_height (c : ResolutionChunker) (row_idx : ℕ) : ℕ :=
  if row_idx = 0 then c.top_block_height else c.ratio_xy.y

/-- chunking.rs:81-87. -/
def read_col_idx_to_block_width (c : ResolutionChunker) (col_idx : ℕ) : ℕ :=
  if col_idx = 0 then c.left_block_width else c.ratio_xy.x

/-- The inner `for col_idx in 0..read_shape.x` loop of
`read_resolution_chucked` (chunking.rs:54-59): `fillCols … k` performs
the fills for the first `k` columns, in order. -/
def fillCols {T : Type} (c : ResolutionChunker) (len row_start row_idx : ℕ)
    (read_buff : ℕ → T) : ℕ → (ℕ → T) → Option (ℕ → T)
  | 0, buf => some buf
  | k + 1, buf =>
    match fillCols c len row_start row_idx read_buff k buf with
    | none => none
    | some b =>
      let block_width := c.read_col_idx_to_block_width k
      let col_start := k * c.ratio_xy.x + c.left_block_width - block_width
      fillRange len (row_start + col_start) block_width
        (read_buff (c.read_shape.x * row_idx + k)) b

/-- One iteration of the outer `for row_idx in 0..read_shape.y` loop of
`read_resolution_chucked` (chunking.rs:49-68): the column fills followed
by the bulk row propagation. -/
def processRow {T : Type} (c : ResolutionChunker) (len : ℕ)
    (read_buff : ℕ → T) (row_idx : ℕ) (buf : ℕ → T) : Option (ℕ → T) :=
  let block_height := c.read_row_idx_to_block_height row_idx
  let row_start :=
    (row_idx * c.ratio_xy.y + c.top_block_height - block_height) * c.view_width
  match fillCols c len row_start row_idx read_buff c.read_shape.x buf with
  | none => none
  | some b => rowCopy len row_start c.view_width block_height b

/-- The outer row loop: `chunkRows … r` processes the first `r` read
rows, in order. -/
def chunkRows {T : Type} (c : ResolutionChunker) (len : ℕ)
    (read_buff : ℕ → T) : ℕ → (ℕ → T) → Option (ℕ → T)
  | 0, buf => some buf
  | r + 1, buf =>
    match chunkRows c len read_buff r buf with
    | none => none
    | some b => processRow c len read_buff r b

/-- `ResolutionChunker::read_resolution_chucked` (chunking.rs:44-71) on
a band buffer of length `len`; `none` models a panic. -/
def read_resolution_chucked {T : Type} (c : ResolutionChunker)
    (read_buff : ℕ → T) (band_buff : ℕ → T) (len : ℕ) : Option (ℕ → T) :=
  chunkRows c len read_buff c.read_shape.y band_buff

end ResolutionChunker

/-- Start of block `k` in a one-dimensional partition whose first block
has extent `first` and whose further blocks have extent `step` (the
block decomposition the chunker induces along one axis). -/
def blockStart (first step : ℕ) : ℕ → ℕ
  | 0 => 0
  | k + 1 => first + k * step

/-- Index of the block containing position `j` in the same
decomposition. -/
def blockOf (first step : ℕ) (j : ℕ) : ℕ :=
  if j < first then 0 else (j - first) / step + 1

namespace ResolutionChunker

/-- First view column of native column block `k`: column block `0`
starts at the left edge and has width `left_block_width`, further blocks
have width `ratio.x`. -/
def colStart (c : ResolutionChunker) (k : ℕ) : ℕ :=
  blockStart c.left_block_width c.ratio_xy.x k

/-- First view row of native row block `k`. -/
def rowStart (c : ResolutionChunker) (k : ℕ) : ℕ :=
  blockStart c.top_block_height c.ratio_xy.y k

/-- The native column whose replicated block contains view column `j`. -/
def colOf (c : ResolutionChunker) (j : ℕ) : ℕ :=
  blockOf c.left_block_width c.ratio_xy.x j

/-- The native row whose replicated block contains view row `i`. -/
def rowOf (c : ResolutionChunker) (i : ℕ) : ℕ :=
  blockOf c.top_block_height c.ratio_xy.y i

end ResolutionChunker

/-- `View` (view/mod.rs:41-44): view bounds plus a band collection
(the band collection type is abstract, as in the generic `View<Ba>`). -/
structure View (Ba : Type) where
  bounds : ViewBounds
  bands : Ba

/-- `View::clip` (view/mod.rs:50-54): intersect the view's bounds with
the given bounds, sharing the band collection. -/
def View.clip {Ba : Type} (v : View Ba) (bounds : ViewBounds) :
    Except RusterioError (View Ba) :=
  (v.bounds.intersection bounds).map (fun b => ⟨b, v.bands⟩)

/-- `Raster` (raster/mod.rs:25-30): geographic bounds plus bands; the
band type is abstract. -/
structure Raster (β : Type) where
  bounds : GeoBounds
  bands : List β
deriving DecidableEq

/-- The `for` loop of `Raster::stack` (raster/mod.rs:79-82): fold the
remaining rasters into the accumulated bounds and band list. -/
def Raster.stackGo {β : Type} :
    GeoBounds → List β → List (Raster β) → Except RusterioError (Raster β)
  | bnd, bs, [] => .ok ⟨bnd, bs⟩
  | bnd, bs, r :: rest =>
    match bnd.intersection r.bounds with
    | .error e => .error e
    | .ok b2 => Raster.stackGo b2 (bs ++ r.bands) rest

/-- `Raster::stack` (raster/mod.rs:74-84): `none` models the
`next().unwrap()` panic on an empty input vector. -/
def Raster.stack {β : Type} :
    List (Raster β) → Option (Except RusterioError (Raster β))
  | [] => none
  | r :: rest => some (Raster.stackGo r.bounds r.bands rest)

/-- A `ReadBand` (view/band.rs:31-34): the view→read transform plus the
band's reader handle.  The three `BandReader` collaborator methods
(§6 of the spec; implemented by the backend, e.g. engines.rs) are
abstract `Except`-valued functions; a successful `readIntoSlice` /
`readToBuffer` yields the row-major contents it wrote. -/
structure ReadBand (T E : Type) where
  transform : AffineTransform
  readPixel : Coord ℕ → Except E T
  readIntoSlice : ReadBounds → Except E (ℕ → T)
  readToBuffer : ReadBounds → Except E (ℕ → T)

/-- The per-band body of `ReadView::read` (view/mod.rs:131-148): compute
the band's read bounds from the view bounds, then either fill the whole
chunk with a single pixel (1×1 read shape), read directly into the chunk
(read shape = view shape), or read to a scratch buffer and expand it
with the `ResolutionChunker`.  The chunk starts zero-initialised
(`Buffer::new`); `none` models a panic. -/
def bandRead {T E : Type} (view_bounds : ViewBounds) (band : ReadBand T E)
    (zero : T) : Option (Except E (ℕ → T)) :=
  match ViewBounds.as_read_bounds view_bounds band.transform with
  | none => none
  | some read_bounds =>
    if read_bounds.shape = (⟨1, 1⟩ : Coord ℕ) then
      some (match band.readPixel read_bounds.min with
        | .error e => .error e
        | .ok v => .ok (fun _ => v))
    else if read_bounds.shape = view_bounds.shape then
      some (band.readIntoSlice read_bounds)
    else
      match band.readToBuffer read_bounds with
      | .error e => some (.error e)
      | .ok read_buff =>
        match (ResolutionChunker.new view_bounds read_bounds).read_resolution_chucked
            read_buff (fun _ => zero) view_bounds.size with
        | none => none
        | some out => some (.ok out)

/-- The band loop of `ReadView::read` (view/mod.rs:125-152): each band
fills its own disjoint chunk; `collect::<Result<…>>` aborts on the
first failing band.  The rayon scheduling order does not affect the
result (disjoint chunks), so the loop is modelled sequentially. -/
def readBands {T E : Type} (view_bounds : ViewBounds) (zero : T) :
    List (ReadBand T E) → Option (Except E (List (ℕ → T)))
  | [] => some (.ok [])
  | band :: rest =>
    match bandRead view_bounds band zero with
    | none => none
    | some (.error e) => some (.error e)
    | some (.ok c) =>
      match readBands view_bounds zero rest with
      | none => none
      | some (.error e) => some (.error e)
      | some (.ok cs) => some (.ok (c :: cs))

/-- `ReadView::read` (view/mod.rs:125-152): the output buffer is the
ordered list of per-band chunks (the flat buffer partitioned into
`num_bands` contiguous chunks of `view_bounds.size()` elements). -/
def ReadView.read {T E : Type} (v : View (List (ReadBand T E))) (zero : T) :
    Option (Except E (List (ℕ → T))) :=
  readBands v.bounds zero v.bands

/-- The least common multiple of a list of naturals (the unified grid
extent of §4.3: the LCM of all groups' native pixel extents along one
axis). -/
def lcmList (l : List ℕ) : ℕ :=
  l.foldr Nat.lcm 1

/-- Modelled from the spec (claim C2's reading of §4.1): the read window
obtained by rounding the transformed minimum corner down (`floor`) and
the transformed maximum corner up (`ceil`), stated over `ℤ` so that both
roundings are representable. -/
def specOutwardReadBounds (v : ViewBounds) (t : AffineTransform) : Rect ℤ :=
  { min := ⟨⌊(t.apply ⟨(v.min.x : ℚ), (v.min.y : ℚ)⟩).x⌋,
           ⌊(t.apply ⟨(v.min.x : ℚ), (v.min.y : ℚ)⟩).y⌋⟩
    max := ⟨⌈(t.apply ⟨(v.max.x : ℚ), (v.max.y : ℚ)⟩).x⌉,
           ⌈(t.apply ⟨(v.max.x : ℚ), (v.max.y : ℚ)⟩).y⌉⟩ }

/-- Strict separation of two rectangles along some axis (the geometric
meaning of "disjoint extents" under the closed-interval policy of
`Rect::intersection`). -/
def Rect.strictSep (a b : Rect ℚ) : Prop :=
  a.max.x < b.min.x ∨ b.max.x < a.min.x ∨ a.max.y < b.min.y ∨ b.max.y < a.min.y

instance (a b : Rect ℚ) : Decidable (a.strictSep b) := by
  unfold Rect.strictSep; infer_instance

/-! ## Helper lemmas -/

namespace Rect

variable {α : Type} [LinearOrder α]

theorem new_wf (c1 c2 : Coord α) : (new c1 c2).wf :=
  ⟨min_le_max, min_le_max⟩

theorem intersection_of_overlap {lhs rhs : Rect α} (h : lhs.overlap rhs) :
    lhs.intersection rhs =
      .ok (Rect.new
        ⟨Max.max lhs.min.x rhs.min.x, Max.max lhs.min.y rhs.min.y⟩
        ⟨Min.min lhs.max.x rhs.max.x, Min.min lhs.max.y rhs.max.y⟩) := by
  obtain ⟨h1, h2, h3, h4⟩ := h
  unfold intersection
  rw [if_neg, if_neg]
  · push_neg; exact ⟨h2, h4⟩
  · push_neg; exact ⟨h1, h3⟩

theorem intersection_of_not_overlap {lhs rhs : Rect α} (h : ¬ lhs.overlap rhs) :
    lhs.intersection rhs = .error .noIntersection := by
  unfold overlap at h
  unfold intersection
  by_cases hc1 : lhs.max.x < rhs.min.x ∨ lhs.max.y < rhs.min.y
  · rw [if_pos hc1]
  · rw [if_neg hc1, if_pos]
    push_neg at hc1 h
    rcases le_or_lt lhs.min.x rhs.max.x with h2 | h2
    · rcases le_or_lt lhs.min.y rhs.max.y with h4 | h4
      · exact absurd h4 (not_le_of_lt (h hc1.1 h2 hc1.2))
      · right; exact h4
    · left; exact h2

/-- If the intersection succeeds on well-formed inputs, the result is the
(unnormalised) max-of-mins / min-of-maxes rectangle and is well-formed. -/
theorem intersection_ok_eq {lhs rhs r : Rect α}
    (ha : lhs.wf) (hb : rhs.wf) (h : lhs.intersection rhs = .ok r) :
    r.min.x = Max.max lhs.min.x rhs.min.x ∧
    r.min.y = Max.max lhs.min.y rhs.min.y ∧
    r.max.x = Min.min lhs.max.x rhs.max.x ∧
    r.max.y = Min.min lhs.max.y rhs.max.y ∧ r.wf := by
  unfold intersection at h
  by_cases hc1 : lhs.max.x < rhs.min.x ∨ lhs.max.y < rhs.min.y
  · rw [if_pos hc1] at h; cases h
  by_cases hc2 : rhs.max.x < lhs.min.x ∨ rhs.max.y < lhs.min.y
  · rw [if_neg hc1, if_pos hc2] at h; cases h
  rw [if_neg hc1, if_neg hc2] at h
  push_neg at hc1 hc2
  injection h with h
  have hx : Max.max lhs.min.x rhs.min.x ≤ Min.min lhs.max.x rhs.max.x :=
    max_le (le_min ha.1 hc2.1) (le_min hc1.1 hb.1)
  have hy : Max.max lhs.min.y rhs.min.y ≤ Min.min lhs.max.y rhs.max.y :=
    max_le (le_min ha.2 hc2.2) (le_min hc1.2 hb.2)
  subst h
  unfold Rect.new
  refine ⟨?_, ?_, ?_, ?_, ?_, ?_⟩ <;>
    simp [min_eq_left, min_eq_right, max_eq_left, max_eq_right, hx, hy,
      min_eq_left hx, min_eq_left hy, max_eq_right hx, max_eq_right hy]

end Rect

theorem Rect.new_eq_of_le {α : Type} [LinearOrder α] {c1 c2 : Coord α}
    (hx : c1.x ≤ c2.x) (hy : c1.y ≤ c2.y) : Rect.new c1 c2 = ⟨c1, c2⟩ := by
  unfold Rect.new
  simp [min_eq_left hx, min_eq_left hy, max_eq_right hx, max_eq_right hy]

theorem Rect.overlap_self {α : Type} [LinearOrder α] {r : Rect α} (h : r.wf) :
    r.overlap r :=
  ⟨h.1, h.1, h.2, h.2⟩

/-! ## Claims -/

/-- **C4**: for every two rectangles with a non-empty (closed-interval)
overlap, `intersection` returns `Ok` with the rectangle whose minimum
corner is the componentwise maximum of the minima and whose maximum
corner is the componentwise minimum of the maxima; for disjoint
rectangles it returns the no-intersection error. -/
theorem claim_C4 (lhs rhs : Rect ℚ) (hl : lhs.wf) (hr : rhs.wf) :
    (lhs.overlap rhs →
      lhs.intersection rhs = .ok
        { min := ⟨Max.max lhs.min.x rhs.min.x, Max.max lhs.min.y rhs.min.y⟩
          max := ⟨Min.min lhs.max.x rhs.max.x, Min.min lhs.max.y rhs.max.y⟩ }) ∧
    (¬ lhs.overlap rhs → lhs.intersection rhs = .error .noIntersection) := by
  constructor
  · intro h
    rw [Rect.intersection_of_overlap h, Rect.new_eq_of_le]
    · exact max_le (le_min hl.1 h.2.1) (le_min h.1 hr.1)
    · exact max_le (le_min hl.2 h.2.2.2) (le_min h.2.2.1 hr.2)
  · exact Rect.intersection_of_not_overlap

theorem claim_C4_witness :
    ((⟨⟨0, 0⟩, ⟨2, 2⟩⟩ : Rect ℚ).overlap ⟨⟨1, 1⟩, ⟨3, 3⟩⟩ →
      (⟨⟨0, 0⟩, ⟨2, 2⟩⟩ : Rect ℚ).intersection ⟨⟨1, 1⟩, ⟨3, 3⟩⟩ =
        .ok ⟨⟨1, 1⟩, ⟨2, 2⟩⟩) ∧
    ((⟨⟨0, 0⟩, ⟨2, 2⟩⟩ : Rect ℚ).intersection ⟨⟨1, 1⟩, ⟨3, 3⟩⟩ =
      .ok ⟨⟨1, 1⟩, ⟨2, 2⟩⟩) := by
  have h := claim_C4 ⟨⟨0, 0⟩, ⟨2, 2⟩⟩ ⟨⟨1, 1⟩, ⟨3, 3⟩⟩ (by decide) (by decide)
  refine ⟨?_, ?_⟩
  · intro hov
    simpa using h.1 hov
  · simpa using h.1 (by decide)

/-- **C9**: intersection treats bounds as closed intervals: touching
rectangles (zero-area overlap, no strictly separating axis) intersect
successfully with a degenerate rectangle of zero width or height;
the no-intersection error occurs exactly when some axis strictly
separates the rectangles. -/
theorem claim_C9 (lhs rhs : Rect ℚ) (hl : lhs.wf) (hr : rhs.wf) :
    (lhs.overlap rhs ∧
        (lhs.max.x = rhs.min.x ∨ rhs.max.x = lhs.min.x ∨
         lhs.max.y = rhs.min.y ∨ rhs.max.y = lhs.min.y) →
      ∃ r, lhs.intersection rhs = .ok r ∧
        (r.min.x = r.max.x ∨ r.min.y = r.max.y)) ∧
    ((∃ e, lhs.intersection rhs = .error e) ↔ ¬ lhs.overlap rhs) := by
  constructor
  · rintro ⟨hov, htouch⟩
    refine ⟨_, Rect.intersection_of_overlap hov, ?_⟩
    have hok : lhs.intersection rhs = .ok (Rect.new
        ⟨Max.max lhs.min.x rhs.min.x, Max.max lhs.min.y rhs.min.y⟩
        ⟨Min.min lhs.max.x rhs.max.x, Min.min lhs.max.y rhs.max.y⟩) :=
      Rect.intersection_of_overlap hov
    obtain ⟨e1, e2, e3, e4, _⟩ := Rect.intersection_ok_eq hl hr hok
    rcases htouch with ht | ht | ht | ht
    · left
      rw [e1, e3]
      have h1 : Max.max lhs.min.x rhs.min.x = rhs.min.x :=
        max_eq_right (ht ▸ hl.1)
      have h2 : Min.min lhs.max.x rhs.max.x = lhs.max.x :=
        min_eq_left (ht ▸ hr.1)
      rw [h1, h2, ht]
    · left
      rw [e1, e3]
      have h1 : Max.max lhs.min.x rhs.min.x = lhs.min.x :=
        max_eq_left (ht ▸ hr.1)
      have h2 : Min.min lhs.max.x rhs.max.x = rhs.max.x :=
        min_eq_right (ht ▸ hl.1)
      rw [h1, h2, ht]
    · right
      rw [e2, e4]
      have h1 : Max.max lhs.min.y rhs.min.y = rhs.min.y :=
        max_eq_right (ht ▸ hl.2)
      have h2 : Min.min lhs.max.y rhs.max.y = lhs.max.y :=
        min_eq_left (ht ▸ hr.2)
      rw [h1, h2, ht]
    · right
      rw [e2, e4]
      have h1 : Max.max lhs.min.y rhs.min.y = lhs.min.y :=
        max_eq_left (ht ▸ hr.2)
      have h2 : Min.min lhs.max.y rhs.max.y = rhs.max.y :=
        min_eq_right (ht ▸ hl.2)
      rw [h1, h2, ht]
  · constructor
    · rintro ⟨e, he⟩ hov
      rw [Rect.intersection_of_overlap hov] at he
      cases he
    · intro hov
      exact ⟨_, Rect.intersection_of_not_overlap hov⟩

theorem claim_C9_witness :
    ∃ r, (⟨⟨0, 0⟩, ⟨1, 1⟩⟩ : Rect ℚ).intersection ⟨⟨1, 0⟩, ⟨2, 1⟩⟩ =
      .ok r ∧ (r.min.x = r.max.x ∨ r.min.y = r.max.y) :=
  (claim_C9 ⟨⟨0, 0⟩, ⟨1, 1⟩⟩ ⟨⟨1, 0⟩, ⟨2, 1⟩⟩ (by decide) (by decide)).1
    ⟨by decide, by decide⟩

/-- **C10**: rectangle intersection preserves the `min ≤ max`
well-formedness invariant: an `Ok` result of intersecting two
well-formed rectangles is itself well-formed (possibly degenerate). -/
theorem claim_C10 {α : Type} [LinearOrder α] (lhs rhs r : Rect α)
    (hl : lhs.wf) (hr : rhs.wf) (h : lhs.intersection rhs = .ok r) :
    r.wf :=
  (Rect.intersection_ok_eq hl hr h).2.2.2.2

theorem claim_C10_witness :
    (⟨⟨0, 0⟩, ⟨2, 2⟩⟩ : Rect ℚ).intersection ⟨⟨1, 1⟩, ⟨3, 3⟩⟩ =
      .ok ⟨⟨1, 1⟩, ⟨2, 2⟩⟩ ∧ (⟨⟨1, 1⟩, ⟨2, 2⟩⟩ : Rect ℚ).wf := by
  have hok : (⟨⟨0, 0⟩, ⟨2, 2⟩⟩ : Rect ℚ).intersection ⟨⟨1, 1⟩, ⟨3, 3⟩⟩ =
      .ok ⟨⟨1, 1⟩, ⟨2, 2⟩⟩ := by decide
  exact ⟨hok, claim_C10 ⟨⟨0, 0⟩, ⟨2, 2⟩⟩ ⟨⟨1, 1⟩, ⟨3, 3⟩⟩ _ (by decide)
    (by decide) hok⟩

/-- **C8**: clipping a view to its own bounds succeeds and returns a
view with identical bounds (and the same shared band collection):
rectangle self-intersection is the identity. -/
theorem claim_C8 {Ba : Type} (v : View Ba) (h : v.bounds.wf) :
    v.clip v.bounds = .ok v := by
  unfold View.clip
  rw [Rect.intersection_of_overlap (Rect.overlap_self h)]
  simp only [Except.map]
  congr 1
  have hrect : Rect.new
      ⟨Max.max v.bounds.min.x v.bounds.min.x, Max.max v.bounds.min.y v.bounds.min.y⟩
      ⟨Min.min v.bounds.max.x v.bounds.max.x, Min.min v.bounds.max.y v.bounds.max.y⟩
      = v.bounds := by
    simp only [max_self, min_self]
    rw [Rect.new_eq_of_le h.1 h.2]
  rw [hrect]

theorem claim_C8_witness :
    View.clip (⟨⟨⟨0, 0⟩, ⟨4, 4⟩⟩, 7⟩ : View ℕ) ⟨⟨0, 0⟩, ⟨4, 4⟩⟩ =
      .ok ⟨⟨⟨0, 0⟩, ⟨4, 4⟩⟩, 7⟩ :=
  claim_C8 ⟨⟨⟨0, 0⟩, ⟨4, 4⟩⟩, 7⟩ (by decide)

theorem ViewBounds.view_as_read_bounds_eq (v : ViewBounds) (t : AffineTransform)
    (z1 z2 z3 z4 : ℤ)
    (h1 : ⌈(t.apply ⟨(v.min.x : ℚ), (v.min.y : ℚ)⟩).x⌉ = z1)
    (h2 : ⌈(t.apply ⟨(v.min.x : ℚ), (v.min.y : ℚ)⟩).y⌉ = z2)
    (h3 : ⌈(t.apply ⟨(v.max.x : ℚ), (v.max.y : ℚ)⟩).x⌉ = z3)
    (h4 : ⌈(t.apply ⟨(v.max.x : ℚ), (v.max.y : ℚ)⟩).y⌉ = z4)
    (hn : 0 ≤ z1 ∧ 0 ≤ z2 ∧ 0 ≤ z3 ∧ 0 ≤ z4) :
    ViewBounds.as_read_bounds v t =
      some (Rect.new ⟨z1.toNat, z2.toNat⟩ ⟨z3.toNat, z4.toNat⟩) := by
  unfold ViewBounds.as_read_bounds
  rw [h1, h2, h3, h4, if_pos hn]

theorem GeoBounds.geo_as_read_bounds_eq (g : GeoBounds) (u : AffineTransform)
    (z1 z2 z3 z4 : ℤ)
    (h1 : ⌊(u.apply g.rect.min).x⌋ = z1) (h2 : ⌊(u.apply g.rect.min).y⌋ = z2)
    (h3 : ⌊(u.apply g.rect.max).x⌋ = z3) (h4 : ⌊(u.apply g.rect.max).y⌋ = z4)
    (hn : 0 ≤ (u.apply g.rect.min).x ∧ 0 ≤ (u.apply g.rect.min).y ∧
      0 ≤ (u.apply g.rect.max).x ∧ 0 ≤ (u.apply g.rect.max).y) :
    GeoBounds.as_read_bounds g u =
      some (Rect.new ⟨z1.toNat, z2.toNat⟩ ⟨z3.toNat, z4.toNat⟩) := by
  unfold GeoBounds.as_read_bounds
  rw [h1, h2, h3, h4, if_pos hn]

theorem eval_view_read_bounds_half :
    ViewBounds.as_read_bounds ⟨⟨1, 0⟩, ⟨3, 2⟩⟩ ⟨1/2, 0, 0, 0, 1/2, 0⟩ =
      some ⟨⟨1, 0⟩, ⟨2, 1⟩⟩ := by
  have h := ViewBounds.view_as_read_bounds_eq ⟨⟨1, 0⟩, ⟨3, 2⟩⟩ ⟨1/2, 0, 0, 0, 1/2, 0⟩
    1 0 2 1 (by norm_num [AffineTransform.apply, Int.ceil_eq_iff])
    (by norm_num [AffineTransform.apply, Int.ceil_eq_iff])
    (by norm_num [AffineTransform.apply, Int.ceil_eq_iff])
    (by norm_num [AffineTransform.apply, Int.ceil_eq_iff])
    (by norm_num)
  rw [h]
  decide

theorem ceil_toNat_bounds {p q : ℚ} (hp : 0 ≤ ⌈p⌉) (hq : 0 ≤ ⌈q⌉) :
    ((Min.min ⌈p⌉.toNat ⌈q⌉.toNat : ℕ) : ℤ) = Min.min ⌈p⌉ ⌈q⌉ ∧
    ((Max.max ⌈p⌉.toNat ⌈q⌉.toNat : ℕ) : ℤ) = Max.max ⌈p⌉ ⌈q⌉ ∧
    Max.max p q ≤ ((Max.max ⌈p⌉.toNat ⌈q⌉.toNat : ℕ) : ℚ) ∧
    ((Min.min ⌈p⌉.toNat ⌈q⌉.toNat : ℕ) : ℚ) < Min.min p q + 1 := by
  have c1 : ((⌈p⌉.toNat : ℕ) : ℚ) = (⌈p⌉ : ℚ) := by
    exact_mod_cast Int.toNat_of_nonneg hp
  have c2 : ((⌈q⌉.toNat : ℕ) : ℚ) = (⌈q⌉ : ℚ) := by
    exact_mod_cast Int.toNat_of_nonneg hq
  refine ⟨?_, ?_, ?_, ?_⟩
  · push_cast [Int.toNat_of_nonneg hp, Int.toNat_of_nonneg hq]; rfl
  · push_cast [Int.toNat_of_nonneg hp, Int.toNat_of_nonneg hq]; rfl
  · have e : ((Max.max ⌈p⌉.toNat ⌈q⌉.toNat : ℕ) : ℚ) =
        Max.max ((⌈p⌉ : ℚ)) ((⌈q⌉ : ℚ)) := by push_cast; rw [c1, c2]
    rw [e]
    exact max_le_max (Int.le_ceil p) (Int.le_ceil q)
  · have e : ((Min.min ⌈p⌉.toNat ⌈q⌉.toNat : ℕ) : ℚ) =
        Min.min ((⌈p⌉ : ℚ)) ((⌈q⌉ : ℚ)) := by push_cast; rw [c1, c2]
    rw [e]
    rcases le_total p q with hle | hle
    · calc Min.min ((⌈p⌉ : ℚ)) ((⌈q⌉ : ℚ)) ≤ (⌈p⌉ : ℚ) := min_le_left _ _
        _ < p + 1 := by exact_mod_cast Int.ceil_lt_add_one p
        _ = Min.min p q + 1 := by rw [min_eq_left hle]
    · calc Min.min ((⌈p⌉ : ℚ)) ((⌈q⌉ : ℚ)) ≤ (⌈q⌉ : ℚ) := min_le_right _ _
        _ < q + 1 := by exact_mod_cast Int.ceil_lt_add_one q
        _ = Min.min p q + 1 := by rw [min_eq_right hle]

theorem floor_toNat_bounds {p q : ℚ} (hp : 0 ≤ p) (hq : 0 ≤ q) :
    ((Min.min ⌊p⌋.toNat ⌊q⌋.toNat : ℕ) : ℤ) = Min.min ⌊p⌋ ⌊q⌋ ∧
    ((Max.max ⌊p⌋.toNat ⌊q⌋.toNat : ℕ) : ℤ) = Max.max ⌊p⌋ ⌊q⌋ ∧
    ((Min.min ⌊p⌋.toNat ⌊q⌋.toNat : ℕ) : ℚ) ≤ Min.min p q ∧
    Min.min p q - 1 < ((Min.min ⌊p⌋.toNat ⌊q⌋.toNat : ℕ) : ℚ) ∧
    ((Max.max ⌊p⌋.toNat ⌊q⌋.toNat : ℕ) : ℚ) ≤ Max.max p q ∧
    Max.max p q - 1 < ((Max.max ⌊p⌋.toNat ⌊q⌋.toNat : ℕ) : ℚ) := by
  have hp' : 0 ≤ ⌊p⌋ := Int.floor_nonneg.mpr hp
  have hq' : 0 ≤ ⌊q⌋ := Int.floor_nonneg.mpr hq
  have c1 : ((⌊p⌋.toNat : ℕ) : ℚ) = (⌊p⌋ : ℚ) := by
    exact_mod_cast Int.toNat_of_nonneg hp'
  have c2 : ((⌊q⌋.toNat : ℕ) : ℚ) = (⌊q⌋ : ℚ) := by
    exact_mod_cast Int.toNat_of_nonneg hq'
  have emin : ((Min.min ⌊p⌋.toNat ⌊q⌋.toNat : ℕ) : ℚ) =
      Min.min ((⌊p⌋ : ℚ)) ((⌊q⌋ : ℚ)) := by push_cast; rw [c1, c2]
  have emax : ((Max.max ⌊p⌋.toNat ⌊q⌋.toNat : ℕ) : ℚ) =
      Max.max ((⌊p⌋ : ℚ)) ((⌊q⌋ : ℚ)) := by push_cast; rw [c1, c2]
  refine ⟨?_, ?_, ?_, ?_, ?_, ?_⟩
  · push_cast [Int.toNat_of_nonneg hp', Int.toNat_of_nonneg hq']; rfl
  · push_cast [Int.toNat_of_nonneg hp', Int.toNat_of_nonneg hq']; rfl
  · rw [emin]
    exact min_le_min (Int.floor_le p) (Int.floor_le q)
  · rw [emin]
    rcases le_total p q with hle | hle
    · calc Min.min p q - 1 = p - 1 := by rw [min_eq_left hle]
        _ < (⌊p⌋ : ℚ) := Int.sub_one_lt_floor p
        _ = Min.min ((⌊p⌋ : ℚ)) ((⌊q⌋ : ℚ)) := by
            rw [min_eq_left (by exact_mod_cast Int.floor_le_floor hle)]
    · calc Min.min p q - 1 = q - 1 := by rw [min_eq_right hle]
        _ < (⌊q⌋ : ℚ) := Int.sub_one_lt_floor q
        _ = Min.min ((⌊p⌋ : ℚ)) ((⌊q⌋ : ℚ)) := by
            rw [min_eq_right (by exact_mod_cast Int.floor_le_floor hle)]
  · rw [emax]
    exact max_le_max (Int.floor_le p) (Int.floor_le q)
  · rw [emax]
    rcases le_total p q with hle | hle
    · calc Max.max p q - 1 = q - 1 := by rw [max_eq_right hle]
        _ < (⌊q⌋ : ℚ) := Int.sub_one_lt_floor q
        _ ≤ Max.max ((⌊p⌋ : ℚ)) ((⌊q⌋ : ℚ)) := le_max_right _ _
    · calc Max.max p q - 1 = p - 1 := by rw [max_eq_left hle]
        _ < (⌊p⌋ : ℚ) := Int.sub_one_lt_floor p
        _ ≤ Max.max ((⌊p⌋ : ℚ)) ((⌊q⌋ : ℚ)) := le_max_left _ _

theorem ViewBounds.view_as_read_bounds_some {v : ViewBounds} {t : AffineTransform}
    {r : ReadBounds} (h : ViewBounds.as_read_bounds v t = some r) :
    0 ≤ ⌈(t.apply ⟨(v.min.x : ℚ), (v.min.y : ℚ)⟩).x⌉ ∧
    0 ≤ ⌈(t.apply ⟨(v.min.x : ℚ), (v.min.y : ℚ)⟩).y⌉ ∧
    0 ≤ ⌈(t.apply ⟨(v.max.x : ℚ), (v.max.y : ℚ)⟩).x⌉ ∧
    0 ≤ ⌈(t.apply ⟨(v.max.x : ℚ), (v.max.y : ℚ)⟩).y⌉ ∧
    r = Rect.new
      ⟨(⌈(t.apply ⟨(v.min.x : ℚ), (v.min.y : ℚ)⟩).x⌉).toNat,
       (⌈(t.apply ⟨(v.min.x : ℚ), (v.min.y : ℚ)⟩).y⌉).toNat⟩
      ⟨(⌈(t.apply ⟨(v.max.x : ℚ), (v.max.y : ℚ)⟩).x⌉).toNat,
       (⌈(t.apply ⟨(v.max.x : ℚ), (v.max.y : ℚ)⟩).y⌉).toNat⟩ := by
  unfold ViewBounds.as_read_bounds at h
  by_cases hc : 0 ≤ ⌈(t.apply ⟨(v.min.x : ℚ), (v.min.y : ℚ)⟩).x⌉ ∧
      0 ≤ ⌈(t.apply ⟨(v.min.x : ℚ), (v.min.y : ℚ)⟩).y⌉ ∧
      0 ≤ ⌈(t.apply ⟨(v.max.x : ℚ), (v.max.y : ℚ)⟩).x⌉ ∧
      0 ≤ ⌈(t.apply ⟨(v.max.x : ℚ), (v.max.y : ℚ)⟩).y⌉
  · rw [if_pos hc] at h
    exact ⟨hc.1, hc.2.1, hc.2.2.1, hc.2.2.2, (Option.some_inj.mp h).symm⟩
  · rw [if_neg hc] at h
    cases h
theorem GeoBounds.geo_as_read_bounds_some {g : GeoBounds} {u : AffineTransform}
    {r : ReadBounds} (h : GeoBounds.as_read_bounds g u = some r) :
    0 ≤ (u.apply g.rect.min).x ∧ 0 ≤ (u.apply g.rect.min).y ∧
    0 ≤ (u.apply g.rect.max).x ∧ 0 ≤ (u.apply g.rect.max).y ∧
    r = Rect.new
      ⟨(⌊(u.apply g.rect.min).x⌋).toNat, (⌊(u.apply g.rect.min).y⌋).toNat⟩
      ⟨(⌊(u.apply g.rect.max).x⌋).toNat, (⌊(u.apply g.rect.max).y⌋).toNat⟩ := by
  unfold GeoBounds.as_read_bounds at h
  by_cases hc : 0 ≤ (u.apply g.rect.min).x ∧ 0 ≤ (u.apply g.rect.min).y ∧
      0 ≤ (u.apply g.rect.max).x ∧ 0 ≤ (u.apply g.rect.max).y
  · rw [if_pos hc] at h
    exact ⟨hc.1, hc.2.1, hc.2.2.1, hc.2.2.2, (Option.some_inj.mp h).symm⟩
  · rw [if_neg hc] at h
    cases h

/-- **C2** fails on the code: `ViewBounds::as_read_bounds` applies
`f64::ceil` to *both* transformed corners (bounds.rs:165), so the minimum
corner is rounded up (inward) instead of down.  At view bounds
(1,0)–(3,2) under the view→read transform `diag(1/2, 1/2)` the
transformed minimum corner is (1/2, 0): the claimed floor/ceil window is
(0,0)–(2,1), but the code returns (1,0)–(2,1), whose minimum x-coordinate
1 lies strictly above the transformed corner x = 1/2 — the window does
not cover the image of the requested region. -/
theorem claim_C2_counterexample :
    ViewBounds.as_read_bounds ⟨⟨1, 0⟩, ⟨3, 2⟩⟩ ⟨1/2, 0, 0, 0, 1/2, 0⟩ =
      some ⟨⟨1, 0⟩, ⟨2, 1⟩⟩ ∧
    specOutwardReadBounds ⟨⟨1, 0⟩, ⟨3, 2⟩⟩ ⟨1/2, 0, 0, 0, 1/2, 0⟩ =
      ⟨⟨0, 0⟩, ⟨2, 1⟩⟩ ∧
    (((1 : ℕ) : ℤ) ≠ (0 : ℤ)) ∧
    (AffineTransform.apply ⟨1/2, 0, 0, 0, 1/2, 0⟩ ⟨((1 : ℕ) : ℚ), ((0 : ℕ) : ℚ)⟩).x
      < ((1 : ℕ) : ℚ) := by
  refine ⟨eval_view_read_bounds_half, ?_, by decide, ?_⟩
  · unfold specOutwardReadBounds
    have e1 : (AffineTransform.apply ⟨1/2, 0, 0, 0, 1/2, 0⟩
        ⟨(((⟨⟨1, 0⟩, ⟨3, 2⟩⟩ : ViewBounds).min.x : ℕ) : ℚ),
         (((⟨⟨1, 0⟩, ⟨3, 2⟩⟩ : ViewBounds).min.y : ℕ) : ℚ)⟩) = ⟨1/2, 0⟩ := by
      norm_num [AffineTransform.apply]
    have e2 : (AffineTransform.apply ⟨1/2, 0, 0, 0, 1/2, 0⟩
        ⟨(((⟨⟨1, 0⟩, ⟨3, 2⟩⟩ : ViewBounds).max.x : ℕ) : ℚ),
         (((⟨⟨1, 0⟩, ⟨3, 2⟩⟩ : ViewBounds).max.y : ℕ) : ℚ)⟩) = ⟨3/2, 1⟩ := by
      norm_num [AffineTransform.apply]
    rw [e1, e2]
    have f1 : ⌊(1/2 : ℚ)⌋ = 0 := by norm_num
    have f2 : ⌊(0 : ℚ)⌋ = 0 := Int.floor_zero
    have f3 : ⌈(3/2 : ℚ)⌉ = 2 := by rw [Int.ceil_eq_iff]; norm_num
    have f4 : ⌈(1 : ℚ)⌉ = 1 := Int.ceil_one
    dsimp only
    rw [f1, f2, f3, f4]
  · norm_num [AffineTransform.apply]

/-- **C2** amended: both conversions apply a single rounding mode to both
transformed corners before taking the bounding rectangle —
`ViewBounds::as_read_bounds` rounds every coordinate up (`ceil`), so the
window covers the transformed region from above but its minimum corner is
rounded inward (within one pixel); `GeoBounds::as_read_bounds` truncates
every non-negative coordinate down (`floor`), so the minimum corner is
rounded outward but the maximum corner inward (within one pixel).  Full
outward covering of the requested region holds only when the respective
corners are integral. -/
theorem claim_C2_amended (v : ViewBounds) (t : AffineTransform)
    (g : GeoBounds) (u : AffineTransform) (p1 p2 q1 q2 : Coord ℚ)
    (hp1 : p1 = t.apply ⟨(v.min.x : ℚ), (v.min.y : ℚ)⟩)
    (hp2 : p2 = t.apply ⟨(v.max.x : ℚ), (v.max.y : ℚ)⟩)
    (hq1 : q1 = u.apply g.rect.min)
    (hq2 : q2 = u.apply g.rect.max) :
    (∀ r : ReadBounds, ViewBounds.as_read_bounds v t = some r →
      ((r.min.x : ℤ) = Min.min ⌈p1.x⌉ ⌈p2.x⌉ ∧
       (r.min.y : ℤ) = Min.min ⌈p1.y⌉ ⌈p2.y⌉ ∧
       (r.max.x : ℤ) = Max.max ⌈p1.x⌉ ⌈p2.x⌉ ∧
       (r.max.y : ℤ) = Max.max ⌈p1.y⌉ ⌈p2.y⌉) ∧
      (Max.max p1.x p2.x ≤ (r.max.x : ℚ) ∧ Max.max p1.y p2.y ≤ (r.max.y : ℚ)) ∧
      ((r.min.x : ℚ) < Min.min p1.x p2.x + 1 ∧
       (r.min.y : ℚ) < Min.min p1.y p2.y + 1)) ∧
    (∀ r : ReadBounds, GeoBounds.as_read_bounds g u = some r →
      ((r.min.x : ℤ) = Min.min ⌊q1.x⌋ ⌊q2.x⌋ ∧
       (r.min.y : ℤ) = Min.min ⌊q1.y⌋ ⌊q2.y⌋ ∧
       (r.max.x : ℤ) = Max.max ⌊q1.x⌋ ⌊q2.x⌋ ∧
       (r.max.y : ℤ) = Max.max ⌊q1.y⌋ ⌊q2.y⌋) ∧
      ((r.min.x : ℚ) ≤ Min.min q1.x q2.x ∧ (r.min.y : ℚ) ≤ Min.min q1.y q2.y ∧
       Min.min q1.x q2.x - 1 < (r.min.x : ℚ) ∧
       Min.min q1.y q2.y - 1 < (r.min.y : ℚ)) ∧
      ((r.max.x : ℚ) ≤ Max.max q1.x q2.x ∧ (r.max.y : ℚ) ≤ Max.max q1.y q2.y ∧
       Max.max q1.x q2.x - 1 < (r.max.x : ℚ) ∧
       Max.max q1.y q2.y - 1 < (r.max.y : ℚ))) := by
  subst hp1 hp2 hq1 hq2
  constructor
  · intro r h
    obtain ⟨h1, h2, h3, h4, hr⟩ := ViewBounds.view_as_read_bounds_some h
    subst hr
    obtain ⟨ex1, ex2, ex3, ex4⟩ := ceil_toNat_bounds h1 h3
    obtain ⟨ey1, ey2, ey3, ey4⟩ := ceil_toNat_bounds h2 h4
    exact ⟨⟨ex1, ey1, ex2, ey2⟩, ⟨ex3, ey3⟩, ⟨ex4, ey4⟩⟩
  · intro r h
    obtain ⟨h1, h2, h3, h4, hr⟩ := GeoBounds.geo_as_read_bounds_some h
    subst hr
    obtain ⟨fx1, fx2, fx3, fx4, fx5, fx6⟩ := floor_toNat_bounds h1 h3
    obtain ⟨fy1, fy2, fy3, fy4, fy5, fy6⟩ := floor_toNat_bounds h2 h4
    exact ⟨⟨fx1, fy1, fx2, fy2⟩, ⟨fx3, fy3, fx4, fy4⟩, ⟨fx5, fy5, fx6, fy6⟩⟩

theorem eval_geo_read_bounds_half :
    GeoBounds.as_read_bounds ⟨"EPSG:32633", ⟨⟨0, 0⟩, ⟨3, 3⟩⟩⟩
      ⟨1/2, 0, 0, 0, 1/2, 0⟩ = some ⟨⟨0, 0⟩, ⟨1, 1⟩⟩ := by
  have h := GeoBounds.geo_as_read_bounds_eq ⟨"EPSG:32633", ⟨⟨0, 0⟩, ⟨3, 3⟩⟩⟩
    ⟨1/2, 0, 0, 0, 1/2, 0⟩ 0 0 1 1
    (by norm_num [AffineTransform.apply])
    (by norm_num [AffineTransform.apply])
    (by norm_num [AffineTransform.apply])
    (by norm_num [AffineTransform.apply])
    (by norm_num [AffineTransform.apply])
  rw [h]
  decide

theorem claim_C2_amended_witness :
    (((1 : ℕ) : ℤ) = Min.min ⌈((1 : ℚ)/2)⌉ ⌈((3 : ℚ)/2)⌉) ∧
    (((0 : ℕ) : ℤ) = Min.min ⌊(0 : ℚ)⌋ ⌊((3 : ℚ)/2)⌋) := by
  have hv := claim_C2_amended ⟨⟨1, 0⟩, ⟨3, 2⟩⟩ ⟨1/2, 0, 0, 0, 1/2, 0⟩
    ⟨"EPSG:32633", ⟨⟨0, 0⟩, ⟨3, 3⟩⟩⟩ ⟨1/2, 0, 0, 0, 1/2, 0⟩
    ⟨1/2, 0⟩ ⟨3/2, 1⟩ ⟨0, 0⟩ ⟨3/2, 3/2⟩
    (by simp only [AffineTransform.apply, Coord.mk.injEq]; norm_num)
    (by simp only [AffineTransform.apply, Coord.mk.injEq]; norm_num)
    (by simp only [AffineTransform.apply, Coord.mk.injEq]; norm_num)
    (by simp only [AffineTransform.apply, Coord.mk.injEq]; norm_num)
  exact ⟨(hv.1 ⟨⟨1, 0⟩, ⟨2, 1⟩⟩ eval_view_read_bounds_half).1.1,
         (hv.2 ⟨⟨0, 0⟩, ⟨1, 1⟩⟩ eval_geo_read_bounds_half).1.1⟩

theorem lcmList_cons (a : ℕ) (l : List ℕ) :
    lcmList (a :: l) = Nat.lcm a (lcmList l) := rfl

theorem foldr_lcm_eq (c : ℕ) (l : List ℕ) :
    l.foldr Nat.lcm c = Nat.lcm (lcmList l) c := by
  induction l with
  | nil => simp [lcmList, Nat.lcm_one_left]
  | cons x xs ih =>
    simp only [List.foldr_cons, ih, lcmList_cons]
    rw [Nat.lcm_assoc]

theorem foldl_lcm_eq {β : Type} (f : β → ℕ) (a : ℕ) (l : List β) :
    l.foldl (fun acc b => Nat.lcm acc (f b)) a = Nat.lcm a (lcmList (l.map f)) := by
  induction l generalizing a with
  | nil => simp [lcmList, Nat.lcm_one_right]
  | cons x xs ih =>
    simp only [List.foldl_cons, ih, List.map_cons, lcmList_cons]
    rw [Nat.lcm_assoc]

theorem dropLast_foldl_lcm {β : Type} (f : β → ℕ) (l : List β) (h : l ≠ []) :
    l.dropLast.foldl (fun acc b => Nat.lcm acc (f b)) (f (l.getLast h)) =
      lcmList (l.map f) := by
  rw [foldl_lcm_eq]
  conv_rhs => rw [← List.dropLast_append_getLast h]
  rw [List.map_append, List.map_singleton]
  unfold lcmList
  rw [List.foldr_append]
  simp only [List.foldr_cons, List.foldr_nil]
  rw [foldr_lcm_eq (Nat.lcm (f (l.getLast h)) 1) (l.dropLast.map f)]
  rw [Nat.lcm_one_right]
  rw [Nat.lcm_comm]
  rfl

theorem coord_foldl_split (l : List ReadBounds) (init : Coord ℕ) :
    l.foldl (fun acc rb =>
      (⟨Nat.lcm acc.x rb.shape.x, Nat.lcm acc.y rb.shape.y⟩ : Coord ℕ)) init =
      ⟨l.foldl (fun a rb => Nat.lcm a rb.shape.x) init.x,
       l.foldl (fun a rb => Nat.lcm a rb.shape.y) init.y⟩ := by
  induction l generalizing init with
  | nil => rfl
  | cons x xs ih => simp only [List.foldl_cons, ih]

theorem readBoundsList_ne_nil {g : GeoBounds} {ts : List AffineTransform}
    {rbs : List ReadBounds} (h : g.readBoundsList ts = some rbs)
    (hne : ts ≠ []) : rbs ≠ [] := by
  match ts, hne with
  | t :: ts', _ =>
    unfold GeoBounds.readBoundsList at h
    match hrb : g.as_read_bounds t, hrest : g.readBoundsList ts' with
    | some rb, some rest =>
      rw [hrb, hrest] at h
      simp only [Option.some_inj] at h
      subst h
      exact List.cons_ne_nil _ _
    | some rb, none => rw [hrb, hrest] at h; cases h
    | none, _ => rw [hrb] at h; cases h

/-- **C3**: for a geographic region and a non-empty list of group
transforms whose read windows all compute (no cast panic), the built
view bounds are anchored at the origin and their shape along each axis
is the least common multiple of the read windows' extents along that
axis; in particular a single group yields exactly that group's native
read shape. -/
theorem claim_C3 (g : GeoBounds) (ts : List AffineTransform)
    (rbs : List ReadBounds) (hne : ts ≠ [])
    (hrbs : g.readBoundsList ts = some rbs) :
    g.build_raster_view_bounds ts =
      some ⟨⟨0, 0⟩, ⟨lcmList (rbs.map fun rb => rb.shape.x),
                    lcmList (rbs.map fun rb => rb.shape.y)⟩⟩ ∧
    (∀ rb, rbs = [rb] →
      g.build_raster_view_bounds ts = some ⟨⟨0, 0⟩, rb.shape⟩) := by
  have hrne : rbs ≠ [] := readBoundsList_ne_nil hrbs hne
  have hmain : g.build_raster_view_bounds ts =
      some ⟨⟨0, 0⟩, ⟨lcmList (rbs.map fun rb => rb.shape.x),
                    lcmList (rbs.map fun rb => rb.shape.y)⟩⟩ := by
    unfold GeoBounds.build_raster_view_bounds
    rw [hrbs]
    dsimp only
    rw [List.getLast?_eq_getLast rbs hrne]
    dsimp only
    have hfold : rbs.dropLast.foldl
        (fun acc rb =>
          (⟨Nat.lcm acc.x rb.shape.x, Nat.lcm acc.y rb.shape.y⟩ : Coord ℕ))
        (rbs.getLast hrne).shape =
        ⟨lcmList (rbs.map fun rb => rb.shape.x),
         lcmList (rbs.map fun rb => rb.shape.y)⟩ := by
      rw [coord_foldl_split]
      have hx := dropLast_foldl_lcm (fun rb => rb.shape.x) rbs hrne
      have hy := dropLast_foldl_lcm (fun rb => rb.shape.y) rbs hrne
      rw [hx, hy]
    rw [hfold]
    rw [Rect.new_eq_of_le (Nat.zero_le _) (Nat.zero_le _)]
  refine ⟨hmain, ?_⟩
  intro rb hrb
  subst hrb
  rw [hmain]
  simp only [List.map_singleton, Option.some_inj]
  congr 1
  unfold lcmList
  simp [Nat.lcm_one_right]

theorem eval_geo_read_bounds_id :
    GeoBounds.as_read_bounds ⟨"EPSG:32633", ⟨⟨0, 0⟩, ⟨12, 12⟩⟩⟩
      ⟨1, 0, 0, 0, 1, 0⟩ = some ⟨⟨0, 0⟩, ⟨12, 12⟩⟩ := by
  have h := GeoBounds.geo_as_read_bounds_eq ⟨"EPSG:32633", ⟨⟨0, 0⟩, ⟨12, 12⟩⟩⟩
    ⟨1, 0, 0, 0, 1, 0⟩ 0 0 12 12
    (by norm_num [AffineTransform.apply])
    (by norm_num [AffineTransform.apply])
    (by norm_num [AffineTransform.apply])
    (by norm_num [AffineTransform.apply])
    (by norm_num [AffineTransform.apply])
  rw [h]
  decide

theorem eval_geo_read_bounds_sixth :
    GeoBounds.as_read_bounds ⟨"EPSG:32633", ⟨⟨0, 0⟩, ⟨12, 12⟩⟩⟩
      ⟨1/6, 0, 0, 0, 1/6, 0⟩ = some ⟨⟨0, 0⟩, ⟨2, 2⟩⟩ := by
  have h := GeoBounds.geo_as_read_bounds_eq ⟨"EPSG:32633", ⟨⟨0, 0⟩, ⟨12, 12⟩⟩⟩
    ⟨1/6, 0, 0, 0, 1/6, 0⟩ 0 0 2 2
    (by norm_num [AffineTransform.apply])
    (by norm_num [AffineTransform.apply])
    (by norm_num [AffineTransform.apply])
    (by norm_num [AffineTransform.apply])
    (by norm_num [AffineTransform.apply])
  rw [h]
  decide

theorem claim_C3_witness :
    GeoBounds.build_raster_view_bounds ⟨"EPSG:32633", ⟨⟨0, 0⟩, ⟨12, 12⟩⟩⟩
      [⟨1, 0, 0, 0, 1, 0⟩, ⟨1/6, 0, 0, 0, 1/6, 0⟩] =
      some ⟨⟨0, 0⟩, ⟨lcmList [12, 2], lcmList [12, 2]⟩⟩ := by
  have hrbs : GeoBounds.readBoundsList ⟨"EPSG:32633", ⟨⟨0, 0⟩, ⟨12, 12⟩⟩⟩
      [⟨1, 0, 0, 0, 1, 0⟩, ⟨1/6, 0, 0, 0, 1/6, 0⟩] =
      some [⟨⟨0, 0⟩, ⟨12, 12⟩⟩, ⟨⟨0, 0⟩, ⟨2, 2⟩⟩] := by
    simp only [GeoBounds.readBoundsList, eval_geo_read_bounds_id,
      eval_geo_read_bounds_sixth]
  exact (claim_C3 ⟨"EPSG:32633", ⟨⟨0, 0⟩, ⟨12, 12⟩⟩⟩
    [⟨1, 0, 0, 0, 1, 0⟩, ⟨1/6, 0, 0, 0, 1/6, 0⟩]
    [⟨⟨0, 0⟩, ⟨12, 12⟩⟩, ⟨⟨0, 0⟩, ⟨2, 2⟩⟩] (by simp) hrbs).1


theorem Rect.not_overlap_iff_strictSep (a b : Rect ℚ) :
    ¬ a.overlap b ↔ a.strictSep b := by
  unfold Rect.overlap Rect.strictSep
  push_neg
  constructor
  · intro h
    rcases lt_or_le a.max.x b.min.x with h1 | h1
    · exact Or.inl h1
    rcases lt_or_le b.max.x a.min.x with h2 | h2
    · exact Or.inr (Or.inl h2)
    rcases lt_or_le a.max.y b.min.y with h3 | h3
    · exact Or.inr (Or.inr (Or.inl h3))
    exact Or.inr (Or.inr (Or.inr (h h1 h2 h3)))
  · intro h h1 h2 h3
    rcases h with h | h | h | h
    · exact absurd h1 (not_le_of_lt h)
    · exact absurd h2 (not_le_of_lt h)
    · exact absurd h3 (not_le_of_lt h)
    · exact h

theorem Rect.strictSep_mono {a b c : Rect ℚ}
    (h1 : c.max.x ≤ a.max.x) (h2 : c.max.y ≤ a.max.y)
    (h3 : a.min.x ≤ c.min.x) (h4 : a.min.y ≤ c.min.y)
    (h : a.strictSep b) : c.strictSep b := by
  unfold Rect.strictSep at h ⊢
  rcases h with h | h | h | h
  · exact Or.inl (lt_of_le_of_lt h1 h)
  · exact Or.inr (Or.inl (lt_of_lt_of_le h h3))
  · exact Or.inr (Or.inr (Or.inl (lt_of_le_of_lt h2 h)))
  · exact Or.inr (Or.inr (Or.inr (lt_of_lt_of_le h h4)))

theorem RusterioError.eq_noIntersection (e : RusterioError) :
    e = .noIntersection := by
  cases e; rfl

theorem GeoBounds.intersection_ok {lhs rhs out : GeoBounds}
    (h : lhs.intersection rhs = .ok out) :
    lhs.rect.intersection rhs.rect = .ok out.rect ∧ out.crs = lhs.crs := by
  unfold GeoBounds.intersection at h
  cases hr : lhs.rect.intersection rhs.rect with
  | error e => rw [hr] at h; cases h
  | ok r =>
    rw [hr] at h
    simp only [Except.map] at h
    injection h with h
    subst h
    exact ⟨rfl, rfl⟩

theorem GeoBounds.intersection_error {lhs rhs : GeoBounds} {e : RusterioError}
    (h : lhs.intersection rhs = .error e) :
    lhs.rect.intersection rhs.rect = .error e := by
  unfold GeoBounds.intersection at h
  cases hr : lhs.rect.intersection rhs.rect with
  | error e2 => rw [e.eq_noIntersection, e2.eq_noIntersection]
  | ok r => rw [hr] at h; simp only [Except.map] at h; cases h

/-- The accumulated bounds of a successful `stack` fold shrink: they stay
inside the accumulator and inside every remaining input. -/
theorem Raster.stackGo_ok_facts {β : Type} :
    ∀ (rest : List (Raster β)) (b : GeoBounds) (bs : List β) (out : Raster β),
    b.rect.wf → (∀ r ∈ rest, r.bounds.rect.wf) →
    Raster.stackGo b bs rest = .ok out →
    out.bounds.rect.wf ∧
    (out.bounds.rect.max.x ≤ b.rect.max.x ∧
     out.bounds.rect.max.y ≤ b.rect.max.y ∧
     b.rect.min.x ≤ out.bounds.rect.min.x ∧
     b.rect.min.y ≤ out.bounds.rect.min.y) ∧
    (∀ r ∈ rest,
      out.bounds.rect.max.x ≤ r.bounds.rect.max.x ∧
      out.bounds.rect.max.y ≤ r.bounds.rect.max.y ∧
      r.bounds.rect.min.x ≤ out.bounds.rect.min.x ∧
      r.bounds.rect.min.y ≤ out.bounds.rect.min.y)
  | [], b, bs, out, hwfb, _, h => by
    unfold Raster.stackGo at h
    injection h with h
    subst h
    exact ⟨hwfb, ⟨le_refl _, le_refl _, le_refl _, le_refl _⟩,
      by intro r hr; cases hr⟩
  | r :: rest, b, bs, out, hwfb, hwfl, h => by
    unfold Raster.stackGo at h
    cases hi : b.intersection r.bounds with
    | error e => rw [hi] at h; cases h
    | ok b2 =>
      rw [hi] at h
      obtain ⟨hrect, _⟩ := GeoBounds.intersection_ok hi
      have hwfr : r.bounds.rect.wf := hwfl r (List.mem_cons_self r rest)
      obtain ⟨e1, e2, e3, e4, hwf2⟩ :=
        Rect.intersection_ok_eq hwfb hwfr hrect
      have ih := Raster.stackGo_ok_facts rest b2 (bs ++ r.bands) out hwf2
        (fun x hx => hwfl x (List.mem_cons_of_mem r hx)) h
      obtain ⟨howf, ⟨a1, a2, a3, a4⟩, hrest⟩ := ih
      refine ⟨howf, ⟨?_, ?_, ?_, ?_⟩, ?_⟩
      · exact le_trans a1 (e3 ▸ min_le_left _ _)
      · exact le_trans a2 (e4 ▸ min_le_left _ _)
      · exact le_trans (e1 ▸ le_max_left _ _) a3
      · exact le_trans (e2 ▸ le_max_left _ _) a4
      · intro x hx
        rcases List.mem_cons.mp hx with hx | hx
        · subst hx
          refine ⟨?_, ?_, ?_, ?_⟩
          · exact le_trans a1 (e3 ▸ min_le_right _ _)
          · exact le_trans a2 (e4 ▸ min_le_right _ _)
          · exact le_trans (e1 ▸ le_max_right _ _) a3
          · exact le_trans (e2 ▸ le_max_right _ _) a4
        · exact hrest x hx

/-- If the accumulator is strictly separated from some remaining input,
or two remaining inputs are strictly separated from each other, the
`stack` fold fails with the no-intersection error. -/
theorem Raster.stackGo_error_of_sep {β : Type} :
    ∀ (rest : List (Raster β)) (b : GeoBounds) (bs : List β),
    b.rect.wf → (∀ r ∈ rest, r.bounds.rect.wf) →
    ((∃ r ∈ rest, b.rect.strictSep r.bounds.rect) ∨
     ¬ List.Pairwise
        (fun x y => ¬ x.bounds.rect.strictSep y.bounds.rect) rest) →
    Raster.stackGo b bs rest = .error .noIntersection
  | [], b, bs, _, _, hsep => by
    rcases hsep with ⟨r, hr, _⟩ | hp
    · cases hr
    · exact absurd List.Pairwise.nil hp
  | r :: rest, b, bs, hwfb, hwfl, hsep => by
    have hwfr : r.bounds.rect.wf := hwfl r (List.mem_cons_self r rest)
    have hwfrest : ∀ x ∈ rest, x.bounds.rect.wf :=
      fun x hx => hwfl x (List.mem_cons_of_mem r hx)
    unfold Raster.stackGo
    cases hi : b.intersection r.bounds with
    | error e => rw [e.eq_noIntersection]
    | ok b2 =>
      obtain ⟨hrect, _⟩ := GeoBounds.intersection_ok hi
      obtain ⟨e1, e2, e3, e4, hwf2⟩ :=
        Rect.intersection_ok_eq hwfb hwfr hrect
      have hsub_b : b2.rect.max.x ≤ b.rect.max.x ∧
          b2.rect.max.y ≤ b.rect.max.y ∧ b.rect.min.x ≤ b2.rect.min.x ∧
          b.rect.min.y ≤ b2.rect.min.y :=
        ⟨e3 ▸ min_le_left _ _, e4 ▸ min_le_left _ _,
         e1 ▸ le_max_left _ _, e2 ▸ le_max_left _ _⟩
      have hsub_r : b2.rect.max.x ≤ r.bounds.rect.max.x ∧
          b2.rect.max.y ≤ r.bounds.rect.max.y ∧
          r.bounds.rect.min.x ≤ b2.rect.min.x ∧
          r.bounds.rect.min.y ≤ b2.rect.min.y :=
        ⟨e3 ▸ min_le_right _ _, e4 ▸ min_le_right _ _,
         e1 ▸ le_max_right _ _, e2 ▸ le_max_right _ _⟩
      apply Raster.stackGo_error_of_sep rest b2 (bs ++ r.bands) hwf2 hwfrest
      rcases hsep with ⟨x, hx, hsx⟩ | hp
      · rcases List.mem_cons.mp hx with hx | hx
        · subst hx
          exfalso
          have hno : b.rect.intersection x.bounds.rect = .error .noIntersection :=
            Rect.intersection_of_not_overlap
              ((Rect.not_overlap_iff_strictSep _ _).mpr hsx)
          rw [hno] at hrect
          cases hrect
        · left
          exact ⟨x, hx, Rect.strictSep_mono hsub_b.1 hsub_b.2.1
            hsub_b.2.2.1 hsub_b.2.2.2 hsx⟩
      · rw [List.pairwise_cons] at hp
        by_cases hall : ∀ x ∈ rest, ¬ r.bounds.rect.strictSep x.bounds.rect
        · right
          intro hpw
          exact hp ⟨hall, hpw⟩
        · push_neg at hall
          obtain ⟨x, hx, hsx⟩ := hall
          left
          exact ⟨x, hx, Rect.strictSep_mono hsub_r.1 hsub_r.2.1
            hsub_r.2.2.1 hsub_r.2.2.2 hsx⟩

/-- A successful `stack` fold computes exactly the left fold of pairwise
bounds intersections and the concatenation of the band lists. -/
theorem Raster.stackGo_ok_char {β : Type} :
    ∀ (rest : List (Raster β)) (b : GeoBounds) (bs : List β) (out : Raster β),
    Raster.stackGo b bs rest = .ok out →
    rest.foldl (fun acc r => acc.bind fun g => g.intersection r.bounds)
        (Except.ok b) = .ok out.bounds ∧
    out.bands = bs ++ (rest.map Raster.bands).flatten
  | [], b, bs, out, h => by
    unfold Raster.stackGo at h
    injection h with h
    subst h
    exact ⟨rfl, by simp⟩
  | r :: rest, b, bs, out, h => by
    unfold Raster.stackGo at h
    cases hi : b.intersection r.bounds with
    | error e => rw [hi] at h; cases h
    | ok b2 =>
      rw [hi] at h
      obtain ⟨ih1, ih2⟩ := Raster.stackGo_ok_char rest b2 (bs ++ r.bands) out h
      constructor
      · simp only [List.foldl_cons, Except.bind, hi]
        exact ih1
      · rw [ih2]
        simp [List.append_assoc]

/-- **C6**: `Raster::stack` fails with the no-intersection error whenever
two input rasters have strictly separated (disjoint) geographic extents,
and on success its bounds are the left fold of pairwise intersections of
the inputs' bounds and its bands the concatenation of the inputs' bands
in input order.  (The source panics on an empty input, hence the
non-empty `r0 :: rest` form; rasters carry well-formed bounds.) -/
theorem claim_C6 {β : Type} (r0 : Raster β) (rest : List (Raster β))
    (hwf : ∀ r ∈ r0 :: rest, r.bounds.rect.wf) :
    (∀ out, Raster.stack (r0 :: rest) = some (.ok out) →
      rest.foldl (fun acc r => acc.bind fun g => g.intersection r.bounds)
          (Except.ok r0.bounds) = .ok out.bounds ∧
      out.bands = r0.bands ++ (rest.map Raster.bands).flatten) ∧
    (¬ List.Pairwise
        (fun x y => ¬ x.bounds.rect.strictSep y.bounds.rect) (r0 :: rest) →
      Raster.stack (r0 :: rest) = some (.error .noIntersection)) := by
  constructor
  · intro out h
    have h2 : some (Raster.stackGo r0.bounds r0.bands rest) =
        some (Except.ok out) := h
    injection h2 with h
    exact Raster.stackGo_ok_char rest r0.bounds r0.bands out h
  · intro hsep
    show some (Raster.stackGo r0.bounds r0.bands rest) =
      some (.error .noIntersection)
    congr 1
    apply Raster.stackGo_error_of_sep rest r0.bounds r0.bands
      (hwf r0 (List.mem_cons_self r0 rest))
      (fun x hx => hwf x (List.mem_cons_of_mem r0 hx))
    rw [List.pairwise_cons] at hsep
    by_cases hall : ∀ x ∈ rest, ¬ r0.bounds.rect.strictSep x.bounds.rect
    · right
      intro hpw
      exact hsep ⟨hall, hpw⟩
    · push_neg at hall
      obtain ⟨x, hx, hsx⟩ := hall
      exact Or.inl ⟨x, hx, hsx⟩

theorem claim_C6_witness :
    Raster.stack
      [(⟨⟨"EPSG:32633", ⟨⟨0, 0⟩, ⟨1, 1⟩⟩⟩, [1]⟩ : Raster ℕ),
       ⟨⟨"EPSG:32633", ⟨⟨2, 2⟩, ⟨3, 3⟩⟩⟩, [2]⟩] =
      some (.error .noIntersection) :=
  (claim_C6 ⟨⟨"EPSG:32633", ⟨⟨0, 0⟩, ⟨1, 1⟩⟩⟩, [1]⟩
    [⟨⟨"EPSG:32633", ⟨⟨2, 2⟩, ⟨3, 3⟩⟩⟩, [2]⟩] (by decide)).2 (by decide)

theorem readBands_cons {T E : Type} (vb : ViewBounds) (zero : T)
    (band : ReadBand T E) (rest : List (ReadBand T E)) :
    readBands vb zero (band :: rest) =
      match bandRead vb band zero with
      | none => none
      | some (.error e) => some (.error e)
      | some (.ok c) =>
        match readBands vb zero rest with
        | none => none
        | some (.error e) => some (.error e)
        | some (.ok cs) => some (.ok (c :: cs)) := rfl

/-- The band loop returns `none` (a panic) only when some band's read
panics. -/
theorem readBands_none {T E : Type} (vb : ViewBounds) (zero : T) :
    ∀ (bands : List (ReadBand T E)), readBands vb zero bands = none →
    ∃ b ∈ bands, bandRead vb b zero = none
  | [], h => by cases h
  | band :: rest, h => by
    rw [readBands_cons] at h
    cases hband : bandRead vb band zero with
    | none => exact ⟨band, List.mem_cons_self band rest, hband⟩
    | some res =>
      rw [hband] at h
      cases res with
      | error e => cases h
      | ok c =>
        cases hrest : readBands vb zero rest with
        | none =>
          obtain ⟨b, hb, hn⟩ := readBands_none vb zero rest hrest
          exact ⟨b, List.mem_cons_of_mem band hb, hn⟩
        | some r =>
          rw [hrest] at h
          cases r <;> cases h

/-- The two error-propagation properties of the band loop of
`ReadView::read`:  it succeeds iff every band succeeds, and an error
result is the error of one of the bands. -/
theorem readBands_char {T E : Type} (vb : ViewBounds) (zero : T) :
    ∀ (bands : List (ReadBand T E)),
    (∀ b ∈ bands, bandRead vb b zero ≠ none) →
    ((∃ chunks, readBands vb zero bands = some (.ok chunks)) ↔
      ∀ b ∈ bands, ∃ c, bandRead vb b zero = some (.ok c)) ∧
    (∀ e, readBands vb zero bands = some (.error e) →
      ∃ b ∈ bands, bandRead vb b zero = some (.error e))
  | [], _ => by
    refine ⟨⟨fun _ b hb => absurd hb (List.not_mem_nil b), fun _ => ⟨[], rfl⟩⟩, ?_⟩
    intro e he
    injection he with he
    cases he
  | band :: rest, hnp => by
    have hnp_rest : ∀ b ∈ rest, bandRead vb b zero ≠ none :=
      fun b hb => hnp b (List.mem_cons_of_mem band hb)
    obtain ⟨ih1, ih2⟩ := readBands_char vb zero rest hnp_rest
    cases hband : bandRead vb band zero with
    | none => exact absurd hband (hnp band (List.mem_cons_self band rest))
    | some res =>
      cases res with
      | error e =>
        have hrw : readBands vb zero (band :: rest) = some (.error e) := by
          rw [readBands_cons, hband]
        refine ⟨⟨?_, ?_⟩, ?_⟩
        · rintro ⟨chunks, hc⟩
          rw [hrw] at hc
          injection hc with hc
          cases hc
        · intro hall
          obtain ⟨c, hc⟩ := hall band (List.mem_cons_self band rest)
          rw [hband] at hc
          injection hc with hc
          cases hc
        · intro e' he'
          rw [hrw] at he'
          injection he' with he'
          injection he' with he'
          exact ⟨band, List.mem_cons_self band rest, by rw [hband, he']⟩
      | ok c =>
        cases hrest : readBands vb zero rest with
        | none =>
          exfalso
          obtain ⟨b, hb, hn⟩ := readBands_none vb zero rest hrest
          exact hnp_rest b hb hn
        | some r =>
          cases r with
          | error e =>
            have hrw : readBands vb zero (band :: rest) = some (.error e) := by
              rw [readBands_cons, hband, hrest]
            refine ⟨⟨?_, ?_⟩, ?_⟩
            · rintro ⟨chunks, hc⟩
              rw [hrw] at hc
              injection hc with hc
              cases hc
            · intro hall
              have : ∀ b ∈ rest, ∃ c, bandRead vb b zero = some (.ok c) :=
                fun b hb => hall b (List.mem_cons_of_mem band hb)
              obtain ⟨chunks, hc⟩ := ih1.mpr this
              rw [hrest] at hc
              injection hc with hc
              cases hc
            · intro e' he'
              rw [hrw] at he'
              injection he' with he'
              injection he' with he'
              obtain ⟨b, hb, hbe⟩ := ih2 e hrest
              exact ⟨b, List.mem_cons_of_mem band hb, by rw [hbe, he']⟩
          | ok cs =>
            have hrw : readBands vb zero (band :: rest) = some (.ok (c :: cs)) := by
              rw [readBands_cons, hband, hrest]
            refine ⟨⟨?_, ?_⟩, ?_⟩
            · rintro ⟨chunks, _⟩
              intro b hb
              rcases List.mem_cons.mp hb with hb | hb
              · exact ⟨c, by rw [hb, hband]⟩
              · exact (ih1.mp ⟨cs, hrest⟩) b hb
            · intro _
              exact ⟨c :: cs, hrw⟩
            · intro e' he'
              rw [hrw] at he'
              injection he' with he'
              cases he'

/-- Evaluation of the per-band read on the 1×1 read-shape path
(view/mod.rs:135-137): the chunk is filled from a single
`read_pixel(read_bounds.offset())` call. -/
theorem bandRead_one {T E : Type} (vb : ViewBounds) (band : ReadBand T E)
    (zero : T) (rb : ReadBounds)
    (hrb : ViewBounds.as_read_bounds vb band.transform = some rb)
    (hshape : rb.shape = (⟨1, 1⟩ : Coord ℕ)) :
    bandRead vb band zero =
      some (match band.readPixel rb.min with
        | .error e => .error e
        | .ok v => .ok (fun _ => v)) := by
  unfold bandRead
  rw [hrb]
  dsimp only
  rw [if_pos hshape]

/-- **C5**: `ReadView::read` returns `Ok` iff every selected band's read
succeeds; when some band fails, the call returns an `Err` carrying a
failing band's error.  No partially filled buffer is returned: the `Err`
constructor carries no buffer at all.  (The hypothesis excludes the
panicking paths, which abort rather than return.) -/
theorem claim_C5 {T E : Type} (v : View (List (ReadBand T E))) (zero : T)
    (hnp : ∀ b ∈ v.bands, bandRead v.bounds b zero ≠ none) :
    ((∃ chunks, ReadView.read v zero = some (.ok chunks)) ↔
      ∀ b ∈ v.bands, ∃ c, bandRead v.bounds b zero = some (.ok c)) ∧
    (∀ e, ReadView.read v zero = some (.error e) →
      ∃ b ∈ v.bands, bandRead v.bounds b zero = some (.error e)) :=
  readBands_char v.bounds zero v.bands hnp

theorem eval_view_read_bounds_unit :
    ViewBounds.as_read_bounds ⟨⟨0, 0⟩, ⟨2, 2⟩⟩ ⟨1/2, 0, 0, 0, 1/2, 0⟩ =
      some ⟨⟨0, 0⟩, ⟨1, 1⟩⟩ := by
  have h := ViewBounds.view_as_read_bounds_eq ⟨⟨0, 0⟩, ⟨2, 2⟩⟩ ⟨1/2, 0, 0, 0, 1/2, 0⟩
    0 0 1 1 (by norm_num [AffineTransform.apply])
    (by norm_num [AffineTransform.apply])
    (by norm_num [AffineTransform.apply, Int.ceil_eq_iff])
    (by norm_num [AffineTransform.apply, Int.ceil_eq_iff])
    (by norm_num)
  rw [h]
  decide

theorem claim_C5_witness :
    ∃ b ∈ [(⟨⟨1/2, 0, 0, 0, 1/2, 0⟩, fun _ => .error 7, fun _ => .error 7,
        fun _ => .error 7⟩ : ReadBand ℕ ℕ)],
      bandRead (⟨⟨0, 0⟩, ⟨2, 2⟩⟩ : ViewBounds) b 0 = some (.error 7) := by
  have hband : bandRead (⟨⟨0, 0⟩, ⟨2, 2⟩⟩ : ViewBounds)
      (⟨⟨1/2, 0, 0, 0, 1/2, 0⟩, fun _ => .error 7, fun _ => .error 7,
        fun _ => .error 7⟩ : ReadBand ℕ ℕ) 0 = some (.error 7) := by
    rw [bandRead_one ⟨⟨0, 0⟩, ⟨2, 2⟩⟩
      (⟨⟨1/2, 0, 0, 0, 1/2, 0⟩, fun _ => .error 7, fun _ => .error 7,
        fun _ => .error 7⟩ : ReadBand ℕ ℕ) 0 ⟨⟨0, 0⟩, ⟨1, 1⟩⟩
      eval_view_read_bounds_unit (by decide)]
  have hread : readBands (⟨⟨0, 0⟩, ⟨2, 2⟩⟩ : ViewBounds) 0
      [(⟨⟨1/2, 0, 0, 0, 1/2, 0⟩, fun _ => .error 7, fun _ => .error 7,
        fun _ => .error 7⟩ : ReadBand ℕ ℕ)] = some (.error 7) := by
    rw [readBands_cons, hband]
  exact (claim_C5 ⟨⟨⟨0, 0⟩, ⟨2, 2⟩⟩, [⟨⟨1/2, 0, 0, 0, 1/2, 0⟩,
      fun _ => .error 7, fun _ => .error 7, fun _ => .error 7⟩]⟩ 0
    (by intro b hb
        rcases List.mem_singleton.mp hb with rfl
        rw [hband]
        exact Option.some_ne_none _)).2 7 hread

/-- **C7**: when a band's computed native read window is 1×1, the
per-band body of `ReadView::read` fills the band's entire output chunk
(every element, hence every one of the view_width × view_height pixels)
with the single value returned by `read_pixel` at the read window's
offset, and the result depends only on `read_pixel` — the general
chunker and the slice readers are never consulted. -/
theorem claim_C7 {T E : Type} (vb : ViewBounds) (zero : T)
    (band : ReadBand T E) (rb : ReadBounds)
    (hrb : ViewBounds.as_read_bounds vb band.transform = some rb)
    (hshape : rb.shape = (⟨1, 1⟩ : Coord ℕ)) :
    bandRead vb band zero =
      some ((band.readPixel rb.min).map (fun v _ => v)) ∧
    (∀ v, band.readPixel rb.min = .ok v →
      ∃ c, bandRead vb band zero = some (.ok c) ∧ ∀ i, c i = v) := by
  have h := bandRead_one vb band zero rb hrb hshape
  constructor
  · rw [h]
    cases band.readPixel rb.min <;> rfl
  · intro v hv
    refine ⟨fun _ => v, ?_, fun _ => rfl⟩
    rw [h, hv]

theorem claim_C7_witness :
    ∃ c, bandRead (⟨⟨0, 0⟩, ⟨2, 2⟩⟩ : ViewBounds)
      (⟨⟨1/2, 0, 0, 0, 1/2, 0⟩, fun _ => .ok 5, fun _ => .error 7,
        fun _ => .error 7⟩ : ReadBand ℕ ℕ) 0 = some (.ok c) ∧ ∀ i, c i = 5 :=
  (claim_C7 ⟨⟨0, 0⟩, ⟨2, 2⟩⟩ 0
    ⟨⟨1/2, 0, 0, 0, 1/2, 0⟩, fun _ => .ok 5, fun _ => .error 7,
      fun _ => .error 7⟩ ⟨⟨0, 0⟩, ⟨1, 1⟩⟩ eval_view_read_bounds_unit
    (by decide)).2 5 rfl

theorem blockStart_succ (first step k : ℕ) :
    blockStart first step (k + 1) =
      blockStart first step k + (if k = 0 then first else step) := by
  cases k with
  | zero => simp [blockStart]
  | succ m =>
    simp only [blockStart, if_neg (Nat.succ_ne_zero m)]
    ring

theorem blockStart_mono (first step : ℕ) {k m : ℕ} (h : k ≤ m) :
    blockStart first step k ≤ blockStart first step m := by
  induction m, h using Nat.le_induction with
  | base => exact le_refl _
  | succ n hkn ih =>
    refine le_trans ih ?_
    rw [blockStart_succ]
    exact Nat.le_add_right _ _

theorem blockOf_mem (first step : ℕ) (hs : 1 ≤ step) (j : ℕ) :
    blockStart first step (blockOf first step j) ≤ j ∧
    j < blockStart first step (blockOf first step j + 1) := by
  unfold blockOf
  by_cases hj : j < first
  · rw [if_pos hj]
    exact ⟨Nat.zero_le j, by simpa [blockStart]⟩
  · rw [if_neg hj]
    push_neg at hj
    constructor
    · show first + (j - first) / step * step ≤ j
      have h1 : (j - first) / step * step ≤ j - first := Nat.div_mul_le_self _ _
      omega
    · show j < first + ((j - first) / step + 1) * step
      have h2 : j - first < ((j - first) / step + 1) * step :=
        (Nat.div_lt_iff_lt_mul hs).mp (Nat.lt_succ_self _)
      omega

theorem blockOf_eq (first step : ℕ) (k j : ℕ) (hlo : blockStart first step k ≤ j)
    (hhi : j < blockStart first step (k + 1)) :
    blockOf first step j = k := by
  unfold blockOf
  cases k with
  | zero =>
    rw [if_pos]
    simpa [blockStart] using hhi
  | succ m =>
    have hj : ¬ j < first := by
      push_neg
      refine le_trans ?_ hlo
      show first ≤ first + m * step
      exact Nat.le_add_right _ _
    rw [if_neg hj]
    have hlo' : m * step ≤ j - first := by
      simp only [blockStart] at hlo
      omega
    have hhi' : j - first < (m + 1) * step := by
      simp only [blockStart] at hhi
      push_neg at hj
      omega
    rw [Nat.div_eq_of_lt_le hlo' hhi']

theorem blockOf_lt (first step : ℕ) {n j : ℕ} (hs : 1 ≤ step)
    (hj : j < blockStart first step n) : blockOf first step j < n := by
  by_contra hge
  push_neg at hge
  have h1 := blockStart_mono first step hge
  have h2 := (blockOf_mem first step hs j).1
  omega

theorem fillRange_some {T : Type} {len start width : ℕ} (val : T)
    (buf : ℕ → T) (h : start + width ≤ len) :
    fillRange len start width val buf =
      some (fun p => if start ≤ p ∧ p < start + width then val else buf p) := by
  unfold fillRange
  rw [if_pos h]

theorem rowCopy_some {T : Type} {len start vw height : ℕ} (buf : ℕ → T)
    (hvw : vw ≠ 0) (h : start + vw * height ≤ len) :
    rowCopy len start vw height buf =
      some (fun p =>
        if start ≤ p ∧ p < start + vw * height then buf (start + (p - start) % vw)
        else buf p) := by
  unfold rowCopy
  rw [if_pos ⟨hvw, h⟩]

namespace ResolutionChunker

theorem code_col_start (c : ResolutionChunker) (k : ℕ) :
    k * c.ratio_xy.x + c.left_block_width - c.read_col_idx_to_block_width k =
      c.colStart k := by
  cases k with
  | zero => simp [read_col_idx_to_block_width, colStart, blockStart]
  | succ m =>
    simp only [read_col_idx_to_block_width, if_neg (Nat.succ_ne_zero m),
      colStart, blockStart]
    have : (m + 1) * c.ratio_xy.x = m * c.ratio_xy.x + c.ratio_xy.x := by ring
    omega

theorem colStart_succ_width (c : ResolutionChunker) (k : ℕ) :
    c.colStart (k + 1) = c.colStart k + c.read_col_idx_to_block_width k := by
  unfold colStart read_col_idx_to_block_width
  rw [blockStart_succ]

theorem rowStart_succ_height (c : ResolutionChunker) (R : ℕ) :
    c.rowStart (R + 1) = c.rowStart R + c.read_row_idx_to_block_height R := by
  unfold rowStart read_row_idx_to_block_height
  rw [blockStart_succ]

theorem code_row_start (c : ResolutionChunker) (R : ℕ) :
    R * c.ratio_xy.y + c.top_block_height - c.read_row_idx_to_block_height R =
      c.rowStart R := by
  cases R with
  | zero => simp [read_row_idx_to_block_height, rowStart, blockStart]
  | succ m =>
    simp only [read_row_idx_to_block_height, if_neg (Nat.succ_ne_zero m),
      rowStart, blockStart]
    have : (m + 1) * c.ratio_xy.y = m * c.ratio_xy.y + c.ratio_xy.y := by ring
    omega

/-- Invariant of the column-fill loop: after the first `k` column fills
of read row `R`, the first `colStart k` positions of the row starting at
`s` hold the nearest-neighbor values and everything else is untouched. -/
theorem fillCols_spec {T : Type} (c : ResolutionChunker) (len s R : ℕ)
    (readBuf : ℕ → T)
    (h1 : 1 ≤ c.left_block_width) (h2 : c.left_block_width ≤ c.ratio_xy.x)
    (hvw : c.colStart c.read_shape.x = c.view_width)
    (hlen : s + c.view_width ≤ len) :
    ∀ k, k ≤ c.read_shape.x → ∀ buf, ∃ b,
      c.fillCols len s R readBuf k buf = some b ∧
      (∀ j, j < c.colStart k →
        b (s + j) = readBuf (c.read_shape.x * R + c.colOf j)) ∧
      (∀ p, p < s ∨ s + c.colStart k ≤ p → b p = buf p)
  | 0, _, buf => by
    refine ⟨buf, rfl, ?_, fun p _ => rfl⟩
    intro j hj
    simp [colStart, blockStart] at hj
  | k + 1, hk, buf => by
    have hrx : 1 ≤ c.ratio_xy.x := le_trans h1 h2
    obtain ⟨b, hb, hfill, hpres⟩ :=
      fillCols_spec c len s R readBuf h1 h2 hvw hlen k (Nat.le_of_succ_le hk) buf
    have hcs : k * c.ratio_xy.x + c.left_block_width -
        c.read_col_idx_to_block_width k = c.colStart k := code_col_start c k
    have hend : c.colStart k + c.read_col_idx_to_block_width k =
        c.colStart (k + 1) := (colStart_succ_width c k).symm
    have hle : c.colStart (k + 1) ≤ c.view_width := by
      rw [← hvw]
      exact blockStart_mono _ _ hk
    have hrange : s + c.colStart k + c.read_col_idx_to_block_width k ≤ len := by
      omega
    refine ⟨fun p =>
        if s + c.colStart k ≤ p ∧
            p < s + c.colStart k + c.read_col_idx_to_block_width k then
          readBuf (c.read_shape.x * R + k)
        else b p, ?_, ?_, ?_⟩
    · show c.fillCols len s R readBuf (k + 1) buf = _
      unfold fillCols
      rw [hb]
      dsimp only
      rw [hcs]
      exact fillRange_some _ b hrange
    · intro j hj
      by_cases hjk : j < c.colStart k
      · have : ¬ (s + c.colStart k ≤ s + j ∧
            s + j < s + c.colStart k + c.read_col_idx_to_block_width k) := by
          omega
        dsimp only
        rw [if_neg this]
        exact hfill j hjk
      · push_neg at hjk
        have hin : s + c.colStart k ≤ s + j ∧
            s + j < s + c.colStart k + c.read_col_idx_to_block_width k := by
          omega
        dsimp only
        rw [if_pos hin]
        have : c.colOf j = k := by
          unfold colOf
          exact blockOf_eq c.left_block_width c.ratio_xy.x k j hjk hj
        rw [this]
    · intro p hp
      have : ¬ (s + c.colStart k ≤ p ∧
          p < s + c.colStart k + c.read_col_idx_to_block_width k) := by
        omega
      dsimp only
      rw [if_neg this]
      exact hpres p (by omega)

end ResolutionChunker

namespace ResolutionChunker

/-- One full row iteration (fills plus bulk copy) writes the
nearest-neighbor values into exactly the view rows of block `R` and
leaves the rest of the buffer untouched. -/
theorem processRow_spec {T : Type} (c : ResolutionChunker) (vh R : ℕ)
    (readBuf : ℕ → T)
    (h1 : 1 ≤ c.left_block_width) (h2 : c.left_block_width ≤ c.ratio_xy.x)
    (h3 : 1 ≤ c.top_block_height) (h4 : c.top_block_height ≤ c.ratio_xy.y)
    (h5 : 1 ≤ c.read_shape.x)
    (hvw : c.colStart c.read_shape.x = c.view_width)
    (hvh : c.rowStart c.read_shape.y = vh)
    (hR : R < c.read_shape.y) :
    ∀ buf, ∃ b,
      c.processRow (c.view_width * vh) readBuf R buf = some b ∧
      (∀ i j, c.rowStart R ≤ i → i < c.rowStart (R + 1) → j < c.view_width →
        b (i * c.view_width + j) = readBuf (c.read_shape.x * R + c.colOf j)) ∧
      (∀ p, p < c.rowStart R * c.view_width ∨
          c.rowStart (R + 1) * c.view_width ≤ p → b p = buf p) := by
  intro buf
  have hvw1 : 1 ≤ c.view_width := by
    rw [← hvw]
    have e1 : c.colStart 1 = c.left_block_width := by
      simp [colStart, blockStart]
    calc 1 ≤ c.left_block_width := h1
      _ = c.colStart 1 := e1.symm
      _ ≤ c.colStart c.read_shape.x := blockStart_mono _ _ h5
  have hbh1 : 1 ≤ c.read_row_idx_to_block_height R := by
    unfold read_row_idx_to_block_height
    split
    · exact h3
    · exact le_trans h3 h4
  have hsucc : c.rowStart (R + 1) =
      c.rowStart R + c.read_row_idx_to_block_height R :=
    rowStart_succ_height c R
  have hrow1 : c.rowStart (R + 1) ≤ vh := by
    rw [← hvh]
    exact blockStart_mono _ _ hR
  have hmul : c.rowStart (R + 1) * c.view_width =
      c.rowStart R * c.view_width +
        c.view_width * c.read_row_idx_to_block_height R := by
    rw [hsucc]; ring
  have hlen_copy : c.rowStart R * c.view_width +
      c.view_width * c.read_row_idx_to_block_height R ≤
      c.view_width * vh := by
    rw [← hmul]
    calc c.rowStart (R + 1) * c.view_width ≤ vh * c.view_width :=
          Nat.mul_le_mul_right _ hrow1
      _ = c.view_width * vh := Nat.mul_comm _ _
  have hlen_fill : c.rowStart R * c.view_width + c.view_width ≤
      c.view_width * vh := by
    have : c.view_width ≤ c.view_width * c.read_row_idx_to_block_height R :=
      Nat.le_mul_of_pos_right _ hbh1
    omega
  obtain ⟨b1, hb1, hfill, hpres⟩ :=
    fillCols_spec c (c.view_width * vh) (c.rowStart R * c.view_width) R readBuf
      h1 h2 hvw hlen_fill c.read_shape.x (le_refl _) buf
  refine ⟨fun p =>
      if c.rowStart R * c.view_width ≤ p ∧
          p < c.rowStart R * c.view_width +
            c.view_width * c.read_row_idx_to_block_height R then
        b1 (c.rowStart R * c.view_width +
          (p - c.rowStart R * c.view_width) % c.view_width)
      else b1 p, ?_, ?_, ?_⟩
  · show c.processRow (c.view_width * vh) readBuf R buf = _
    unfold processRow
    dsimp only
    rw [code_row_start c R, hb1]
    exact rowCopy_some b1 (by omega) hlen_copy
  · intro i j hi1 hi2 hj
    have hin : c.rowStart R * c.view_width ≤ i * c.view_width + j ∧
        i * c.view_width + j < c.rowStart R * c.view_width +
          c.view_width * c.read_row_idx_to_block_height R := by
      constructor
      · exact le_trans (Nat.mul_le_mul_right _ hi1) (Nat.le_add_right _ _)
      · rw [← hmul]
        calc i * c.view_width + j < i * c.view_width + c.view_width := by omega
          _ = (i + 1) * c.view_width := by ring
          _ ≤ c.rowStart (R + 1) * c.view_width := Nat.mul_le_mul_right _ hi2
    dsimp only
    rw [if_pos hin]
    have hdiff : i * c.view_width + j - c.rowStart R * c.view_width =
        c.view_width * (i - c.rowStart R) + j := by
      have e : i * c.view_width = c.rowStart R * c.view_width +
          (i - c.rowStart R) * c.view_width := by
        rw [← Nat.add_mul]
        congr 1
        omega
      rw [e, Nat.mul_comm (i - c.rowStart R) c.view_width]
      omega
    rw [hdiff, Nat.mul_add_mod, Nat.mod_eq_of_lt hj]
    rw [hfill j (hvw ▸ hj)]
  · intro p hp
    have hnot : ¬ (c.rowStart R * c.view_width ≤ p ∧
        p < c.rowStart R * c.view_width +
          c.view_width * c.read_row_idx_to_block_height R) := by
      rw [hmul] at hp
      omega
    dsimp only
    rw [if_neg hnot]
    apply hpres
    rcases hp with hp | hp
    · exact Or.inl hp
    · right
      rw [hvw]
      rw [hmul] at hp
      have : c.view_width ≤ c.view_width * c.read_row_idx_to_block_height R :=
        Nat.le_mul_of_pos_right _ hbh1
      omega

end ResolutionChunker

namespace ResolutionChunker

/-- Invariant of the outer row loop: after the first `R` read rows, the
first `rowStart R` view rows hold the nearest-neighbor values and the
rest of the buffer is untouched. -/
theorem rowStart_mono (c : ResolutionChunker) {k m : ℕ} (h : k ≤ m) :
    c.rowStart k ≤ c.rowStart m := by
  unfold rowStart
  exact blockStart_mono _ _ h

theorem chunkRows_spec {T : Type} (c : ResolutionChunker) (vh : ℕ)
    (readBuf buf0 : ℕ → T)
    (h1 : 1 ≤ c.left_block_width) (h2 : c.left_block_width ≤ c.ratio_xy.x)
    (h3 : 1 ≤ c.top_block_height) (h4 : c.top_block_height ≤ c.ratio_xy.y)
    (h5 : 1 ≤ c.read_shape.x)
    (hvw : c.colStart c.read_shape.x = c.view_width)
    (hvh : c.rowStart c.read_shape.y = vh) :
    ∀ R, R ≤ c.read_shape.y → ∃ b,
      c.chunkRows (c.view_width * vh) readBuf R buf0 = some b ∧
      (∀ i j, i < c.rowStart R → j < c.view_width →
        b (i * c.view_width + j) =
          readBuf (c.read_shape.x * c.rowOf i + c.colOf j)) ∧
      (∀ p, c.rowStart R * c.view_width ≤ p → b p = buf0 p)
  | 0, _ => by
    refine ⟨buf0, rfl, ?_, fun p _ => rfl⟩
    intro i j hi _
    simp [rowStart, blockStart] at hi
  | R + 1, hk => by
    obtain ⟨b, hb, hfill, hsuf⟩ := chunkRows_spec c vh readBuf buf0
      h1 h2 h3 h4 h5 hvw hvh R (Nat.le_of_succ_le hk)
    obtain ⟨b2, hb2, hfill2, hpres2⟩ :=
      processRow_spec c vh R readBuf h1 h2 h3 h4 h5 hvw hvh hk b
    refine ⟨b2, ?_, ?_, ?_⟩
    · show c.chunkRows (c.view_width * vh) readBuf (R + 1) buf0 = some b2
      unfold chunkRows
      rw [hb]
      exact hb2
    · intro i j hi hj
      by_cases hiR : i < c.rowStart R
      · have hplt : i * c.view_width + j < c.rowStart R * c.view_width := by
          calc i * c.view_width + j
              < i * c.view_width + c.view_width := by omega
            _ = (i + 1) * c.view_width := by ring
            _ ≤ c.rowStart R * c.view_width := Nat.mul_le_mul_right _ hiR
        rw [hpres2 _ (Or.inl hplt)]
        exact hfill i j hiR hj
      · push_neg at hiR
        rw [hfill2 i j hiR hi hj]
        have hro : c.rowOf i = R :=
          blockOf_eq c.top_block_height c.ratio_xy.y R i hiR hi
        rw [hro]
    · intro p hp
      have hge : c.rowStart R * c.view_width ≤ p := by
        have hm := Nat.mul_le_mul_right c.view_width
          (rowStart_mono c (show R ≤ R + 1 by omega))
        omega
      rw [hpres2 _ (Or.inr hp)]
      exact hsuf p hge

/-- The nearest-neighbor law for `read_resolution_chucked` on a
block-aligned window: the read succeeds (no out-of-bounds write) and
every output pixel holds the value of the native pixel whose replicated
block contains it. -/
theorem read_chucked_law {T : Type} (c : ResolutionChunker) (vh : ℕ)
    (readBuf buf0 : ℕ → T)
    (h1 : 1 ≤ c.left_block_width) (h2 : c.left_block_width ≤ c.ratio_xy.x)
    (h3 : 1 ≤ c.top_block_height) (h4 : c.top_block_height ≤ c.ratio_xy.y)
    (h5 : 1 ≤ c.read_shape.x)
    (hvw : c.colStart c.read_shape.x = c.view_width)
    (hvh : c.rowStart c.read_shape.y = vh) :
    ∃ out, c.read_resolution_chucked readBuf buf0 (c.view_width * vh) =
        some out ∧
      ∀ i j, i < vh → j < c.view_width →
        out (i * c.view_width + j) =
          readBuf (c.read_shape.x * c.rowOf i + c.colOf j) := by
  obtain ⟨b, hb, hfill, _⟩ := chunkRows_spec c vh readBuf buf0
    h1 h2 h3 h4 h5 hvw hvh c.read_shape.y (le_refl _)
  exact ⟨b, hb, fun i j hi hj => hfill i j (hvh ▸ hi) hj⟩

end ResolutionChunker

theorem divCeil_pos {a : ℕ} (b : ℕ) (ha : 1 ≤ a) : 1 ≤ divCeil a b := by
  unfold divCeil
  by_cases hb : b = 0
  · subst hb
    rw [Nat.mod_zero]
    rw [if_neg (show ¬ a = 0 by omega)]
    exact Nat.le_add_left 1 _
  · have hb1 : 0 < b := Nat.pos_of_ne_zero hb
    by_cases hab : a < b
    · rw [Nat.mod_eq_of_lt hab]
      rw [if_neg (show ¬ a = 0 by omega)]
      exact Nat.le_add_left 1 _
    · push_neg at hab
      have h1 : 1 ≤ a / b := (Nat.one_le_div_iff hb1).mpr hab
      split <;> omega

namespace ResolutionChunker

/-- Structural facts about a freshly built chunker: the ratio is
positive, the first (left/top) partial block extent lies between 1 and
the ratio, and the remaining fields copy the input shapes. -/
theorem new_facts (v r : Rect ℕ) (hvx : 1 ≤ v.shape.x) (hvy : 1 ≤ v.shape.y) :
    1 ≤ (new v r).ratio_xy.x ∧ 1 ≤ (new v r).ratio_xy.y ∧
    1 ≤ (new v r).left_block_width ∧
    (new v r).left_block_width ≤ (new v r).ratio_xy.x ∧
    1 ≤ (new v r).top_block_height ∧
    (new v r).top_block_height ≤ (new v r).ratio_xy.y ∧
    (new v r).view_width = v.shape.x ∧ (new v r).read_shape = r.shape := by
  have hrx : 1 ≤ divCeil v.shape.x r.shape.x := divCeil_pos _ hvx
  have hry : 1 ≤ divCeil v.shape.y r.shape.y := divCeil_pos _ hvy
  have hmodx1 : v.min.x % divCeil v.shape.x r.shape.x <
      divCeil v.shape.x r.shape.x := Nat.mod_lt _ hrx
  have hmodx2 : v.max.x % divCeil v.shape.x r.shape.x <
      divCeil v.shape.x r.shape.x := Nat.mod_lt _ hrx
  have hmody1 : v.min.y % divCeil v.shape.y r.shape.y <
      divCeil v.shape.y r.shape.y := Nat.mod_lt _ hry
  have hmody2 : v.max.y % divCeil v.shape.y r.shape.y <
      divCeil v.shape.y r.shape.y := Nat.mod_lt _ hry
  have hminx : Min.min (v.min.x % divCeil v.shape.x r.shape.x)
      (v.max.x % divCeil v.shape.x r.shape.x) <
      divCeil v.shape.x r.shape.x :=
    lt_of_le_of_lt (min_le_left _ _) hmodx1
  have hmaxy : Max.max (v.min.y % divCeil v.shape.y r.shape.y)
      (v.max.y % divCeil v.shape.y r.shape.y) <
      divCeil v.shape.y r.shape.y := max_lt hmody1 hmody2
  unfold new
  dsimp only [Rect.new]
  refine ⟨hrx, hry, ?_, Nat.sub_le _ _, ?_, ?_, rfl, rfl⟩
  · omega
  · split <;> omega
  · split <;> omega

end ResolutionChunker

/-- Evaluation of the per-band read on the chunked path
(view/mod.rs:142-147). -/
theorem bandRead_chunked {T E : Type} (vb : ViewBounds) (band : ReadBand T E)
    (zero : T) (rb : ReadBounds) (rbuf : ℕ → T)
    (hrb : ViewBounds.as_read_bounds vb band.transform = some rb)
    (hne1 : rb.shape ≠ (⟨1, 1⟩ : Coord ℕ)) (hne2 : rb.shape ≠ vb.shape)
    (hread : band.readToBuffer rb = .ok rbuf) :
    bandRead vb band zero =
      match (ResolutionChunker.new vb rb).read_resolution_chucked rbuf
          (fun _ => zero) vb.size with
      | none => none
      | some out => some (.ok out) := by
  unfold bandRead
  rw [hrb]
  dsimp only
  rw [if_neg hne1, if_neg hne2, hread]

/-- **C1** amended: nearest-neighbor law for the chunked path of
`ReadView::read`.  The chunker truncates the partial blocks at the
*left and top* edges of the view window (by the alignment offsets
`left_block_width` and `top_block_height`); provided the right and
bottom edges are block-aligned — the blocks tile the view width and
height exactly (`colStart read_w = view_w`, `rowStart read_h = view_h`)
— the chunked read succeeds and every pixel of the band's output chunk
equals the value of the unique native pixel whose replicated block
contains it.  Without the right/bottom alignment the fills can run past
the row and the buffer (see the counterexample, where the code
panics). -/
theorem claim_C1_amended {T E : Type} (vb : ViewBounds) (zero : T)
    (band : ReadBand T E) (rb : ReadBounds) (rbuf : ℕ → T)
    (hrb : ViewBounds.as_read_bounds vb band.transform = some rb)
    (hne1 : rb.shape ≠ (⟨1, 1⟩ : Coord ℕ)) (hne2 : rb.shape ≠ vb.shape)
    (hread : band.readToBuffer rb = .ok rbuf)
    (hvx : 1 ≤ vb.shape.x) (hvy : 1 ≤ vb.shape.y) (hrx : 1 ≤ rb.shape.x)
    (halignx : (ResolutionChunker.new vb rb).colStart rb.shape.x = vb.shape.x)
    (haligny : (ResolutionChunker.new vb rb).rowStart rb.shape.y = vb.shape.y) :
    ∃ c, bandRead vb band zero = some (.ok c) ∧
      ∀ i j, i < vb.shape.y → j < vb.shape.x →
        c (i * vb.shape.x + j) =
          rbuf (rb.shape.x * ((ResolutionChunker.new vb rb).rowOf i) +
                (ResolutionChunker.new vb rb).colOf j) := by
  obtain ⟨f1, f2, f3, f4, f5, f6, f7, f8⟩ :=
    ResolutionChunker.new_facts vb rb hvx hvy
  have hvw' : (ResolutionChunker.new vb rb).colStart
      (ResolutionChunker.new vb rb).read_shape.x =
      (ResolutionChunker.new vb rb).view_width := by
    rw [f8, f7]
    exact halignx
  have hvh' : (ResolutionChunker.new vb rb).rowStart
      (ResolutionChunker.new vb rb).read_shape.y = vb.shape.y := by
    rw [f8]
    exact haligny
  have hrx' : 1 ≤ (ResolutionChunker.new vb rb).read_shape.x := by
    rw [f8]
    exact hrx
  obtain ⟨out, hout, hlaw⟩ :=
    ResolutionChunker.read_chucked_law (ResolutionChunker.new vb rb)
      vb.shape.y rbuf (fun _ => zero) f3 f4 f5 f6 hrx' hvw' hvh'
  have hlen : vb.size = (ResolutionChunker.new vb rb).view_width *
      vb.shape.y := by
    rw [f7]
    rfl
  refine ⟨out, ?_, ?_⟩
  · rw [bandRead_chunked vb band zero rb rbuf hrb hne1 hne2 hread,
      hlen, hout]
  · intro i j hi hj
    have h := hlaw i j hi (by rw [f7]; exact hj)
    rw [f7] at h
    rw [f8] at h
    exact h

theorem eval_view_read_bounds_32 :
    ViewBounds.as_read_bounds ⟨⟨0, 0⟩, ⟨3, 2⟩⟩ ⟨1/2, 0, 0, 0, 1, 0⟩ =
      some ⟨⟨0, 0⟩, ⟨2, 2⟩⟩ := by
  have h := ViewBounds.view_as_read_bounds_eq ⟨⟨0, 0⟩, ⟨3, 2⟩⟩ ⟨1/2, 0, 0, 0, 1, 0⟩
    0 0 2 2 (by norm_num [AffineTransform.apply])
    (by norm_num [AffineTransform.apply])
    (by norm_num [AffineTransform.apply, Int.ceil_eq_iff])
    (by norm_num [AffineTransform.apply, Int.ceil_eq_iff])
    (by norm_num)
  rw [h]
  decide

/-- **C1** fails on the code: the chunker truncates only the left and
top partial blocks; the right edge of the last column block is not
truncated to the view bounds.  Through `ReadView::read`: view bounds
(0,0)–(3,2) with the view→read transform `diag(1/2, 1)` give native
read bounds (0,0)–(2,2) — integer ratios 2 and 1, zero alignment
offset, read shape ≠ view shape.  In the last native row the untruncated
right block writes past the end of the band buffer (`band_buff[5..7]`
with a 6-element chunk), a panic, modelled by `none`: no output chunk
satisfying the nearest-neighbor law is produced at all. -/
theorem claim_C1_counterexample :
    ViewBounds.as_read_bounds ⟨⟨0, 0⟩, ⟨3, 2⟩⟩ ⟨1/2, 0, 0, 0, 1, 0⟩ =
      some ⟨⟨0, 0⟩, ⟨2, 2⟩⟩ ∧
    (⟨⟨0, 0⟩, ⟨2, 2⟩⟩ : ReadBounds).shape ≠
      (⟨⟨0, 0⟩, ⟨3, 2⟩⟩ : ViewBounds).shape ∧
    (ResolutionChunker.new ⟨⟨0, 0⟩, ⟨3, 2⟩⟩ ⟨⟨0, 0⟩, ⟨2, 2⟩⟩).ratio_xy =
      (⟨2, 1⟩ : Coord ℕ) ∧
    bandRead (⟨⟨0, 0⟩, ⟨3, 2⟩⟩ : ViewBounds)
      (⟨⟨1/2, 0, 0, 0, 1, 0⟩, fun _ => .ok 0, fun _ => .ok (fun n => n),
        fun _ => .ok (fun n => n)⟩ : ReadBand ℕ ℕ) 0 = none := by
  refine ⟨eval_view_read_bounds_32, by decide, by decide, ?_⟩
  rw [bandRead_chunked ⟨⟨0, 0⟩, ⟨3, 2⟩⟩
    (⟨⟨1/2, 0, 0, 0, 1, 0⟩, fun _ => .ok 0, fun _ => .ok (fun n => n),
      fun _ => .ok (fun n => n)⟩ : ReadBand ℕ ℕ) 0 ⟨⟨0, 0⟩, ⟨2, 2⟩⟩
    (fun n => n) eval_view_read_bounds_32 (by decide) (by decide) rfl]
  have hnone : (ResolutionChunker.new (⟨⟨0, 0⟩, ⟨3, 2⟩⟩ : ViewBounds)
      ⟨⟨0, 0⟩, ⟨2, 2⟩⟩).read_resolution_chucked (fun n => n) (fun _ => (0 : ℕ))
      (Rect.size ⟨⟨0, 0⟩, ⟨3, 2⟩⟩) = none := rfl
  rw [hnone]

theorem eval_view_read_bounds_44 :
    ViewBounds.as_read_bounds ⟨⟨0, 0⟩, ⟨4, 4⟩⟩ ⟨1/2, 0, 0, 0, 1/2, 0⟩ =
      some ⟨⟨0, 0⟩, ⟨2, 2⟩⟩ := by
  have h := ViewBounds.view_as_read_bounds_eq ⟨⟨0, 0⟩, ⟨4, 4⟩⟩
    ⟨1/2, 0, 0, 0, 1/2, 0⟩ 0 0 2 2
    (by norm_num [AffineTransform.apply])
    (by norm_num [AffineTransform.apply])
    (by norm_num [AffineTransform.apply, Int.ceil_eq_iff])
    (by norm_num [AffineTransform.apply, Int.ceil_eq_iff])
    (by norm_num)
  rw [h]
  decide

theorem claim_C1_amended_witness :
    ∃ c, bandRead (⟨⟨0, 0⟩, ⟨4, 4⟩⟩ : ViewBounds)
      (⟨⟨1/2, 0, 0, 0, 1/2, 0⟩, fun _ => .ok 0, fun _ => .ok (fun n => n),
        fun _ => .ok (fun n => n)⟩ : ReadBand ℕ ℕ) 0 = some (.ok c) ∧
      ∀ i j, i < (⟨⟨0, 0⟩, ⟨4, 4⟩⟩ : ViewBounds).shape.y →
        j < (⟨⟨0, 0⟩, ⟨4, 4⟩⟩ : ViewBounds).shape.x →
        c (i * (⟨⟨0, 0⟩, ⟨4, 4⟩⟩ : ViewBounds).shape.x + j) =
          (fun n => n) ((⟨⟨0, 0⟩, ⟨2, 2⟩⟩ : ReadBounds).shape.x *
            ((ResolutionChunker.new ⟨⟨0, 0⟩, ⟨4, 4⟩⟩ ⟨⟨0, 0⟩, ⟨2, 2⟩⟩).rowOf i) +
            (ResolutionChunker.new ⟨⟨0, 0⟩, ⟨4, 4⟩⟩ ⟨⟨0, 0⟩, ⟨2, 2⟩⟩).colOf j) :=
  claim_C1_amended ⟨⟨0, 0⟩, ⟨4, 4⟩⟩ 0
    ⟨⟨1/2, 0, 0, 0, 1/2, 0⟩, fun _ => .ok 0, fun _ => .ok (fun n => n),
      fun _ => .ok (fun n => n)⟩ ⟨⟨0, 0⟩, ⟨2, 2⟩⟩ (fun n => n)
    eval_view_read_bounds_44 (by decide) (by decide) rfl
    (by decide) (by decide) (by decide) (by decide) (by decide)
